import Mathlib

/-!
# primesieve: the bootstrap prime generator and its tuning constants

A shallow embedding of `src/soe/PrimeGenerator.cpp`, `src/soe/PrimeNumberGenerator.h`
and `include/primesieve/config.hpp`.

* `uint_t` is `unsigned int`: values are naturals below `2 ^ 32`, every arithmetic
  operation of the source is followed by an explicit `% UINT_MOD`.
* `std::vector<char> isPrime` is a `List Bool`; reading or writing past its end is
  reported as `Run.outOfBounds`.
* The `for` loops of the source are recursive functions driven by a fuel counter
  (one unit per evaluation of the loop test); `Run.outOfFuel` means the counter
  was too small, never a result of the program.
* `addSievingPrime(i)` is recorded by appending `i` to the list of calls.
* The same loops are given twice more: over unbounded naturals, by well-founded
  recursion (`crossOffNat`, `markLoopNat`, `registerLoopNat`), and with every sum and
  product checked against `2 ^ 32` (`Checked.wrapped`).
-/

set_option linter.dupNamespace false

namespace primesieve

/-! ## config.hpp -/

/-- Number of values of `uint_t` (`typedef unsigned int uint_t`). -/
def UINT_MOD : Nat := 2 ^ 32

/-- Number of values of `uint64_t`. -/
def UINT64_MOD : Nat := 2 ^ 64

/-- The macro `L1_DCACHE_SIZE`, default value. -/
def L1_DCACHE_SIZE : Nat := 32

/-- The macro `SIEVESIZE`, default value. -/
def SIEVESIZE : Nat := L1_DCACHE_SIZE

/-- The bit array holds 30 numbers per byte. -/
def NUMBERS_PER_BYTE : Nat := 30

/-- The offsets of the 8 bits of each byte, as documented at `NUMBERS_PER_BYTE`. -/
def bitOffsets : List Nat := [7, 11, 13, 17, 19, 23, 29, 31]

namespace config

def PRIMESIEVE_SIEVESIZE : Nat := SIEVESIZE

def PRIMEGENERATOR_SIEVESIZE : Nat := L1_DCACHE_SIZE

def PRESIEVE : Nat := 19

def PRESIEVE_THRESHOLD : Nat := 100000000

def BUCKETSIZE : Nat := 1 <<< 10

def BYTES_PER_ALLOC : Nat := (1 <<< 20) * 8

def ITERATOR_CACHE_SMALL : Nat := (1 <<< 20) * 4

def ITERATOR_CACHE_MAX : Nat := (1 <<< 20) * 512

/-- The constant `const double FACTOR_ERATSMALL = 0.5`; the value is a dyadic rational. -/
def FACTOR_ERATSMALL : ℚ := 1 / 2

/-- The constant `const double FACTOR_ERATMEDIUM = 2.5`; the value is a dyadic rational. -/
def FACTOR_ERATMEDIUM : ℚ := 5 / 2

/-- The constant `static_cast<uint64_t>(1e7)`. -/
def MIN_THREAD_INTERVAL : Nat := 10000000 % UINT64_MOD

/-- The constant `static_cast<uint64_t>(2e10)`. -/
def MAX_THREAD_INTERVAL : Nat := 20000000000 % UINT64_MOD

end config

/-! ## PrimeGenerator.cpp: generateTinyPrimes -/

/-- Outcome of running a loop of the source with a fuel counter. -/
inductive Run (α : Type) where
  | done (a : α) : Run α
  | outOfBounds : Run α
  | outOfFuel : Run α
deriving DecidableEq

/-- Bitwise complement of a `uint_t`: the operator `~`. -/
def bitNot (x : Nat) : Nat := UINT_MOD - 1 - x % UINT_MOD

/-- The inner marking loop
`for (uint_t j = ...; j <= N; j += i * 2) isPrime[j] = false;`
entered with the current value of `j`. -/
def crossOff : Nat → Nat → Nat → Nat → List Bool → Run (List Bool)
  | 0, _, _, _, _ => Run.outOfFuel
  | fuel + 1, N, i, j, isPrime =>
    if j ≤ N then
      if j < isPrime.length then
        crossOff fuel N i ((j + (i * 2) % UINT_MOD) % UINT_MOD) (isPrime.set j false)
      else Run.outOfBounds
    else Run.done isPrime

/-- The outer marking loop
`for (uint_t i = 3; i * i <= N; i += 2) if (isPrime[i]) for (uint_t j = i * i; ...)`
entered with the current value of `i`. The inner loop receives the same fuel. -/
def markLoop (inner : Nat) : Nat → Nat → Nat → List Bool → Run (List Bool)
  | 0, _, _, _ => Run.outOfFuel
  | fuel + 1, N, i, isPrime =>
    if (i * i) % UINT_MOD ≤ N then
      match isPrime[i]? with
      | none => Run.outOfBounds
      | some true =>
        match crossOff inner N i ((i * i) % UINT_MOD) isPrime with
        | Run.done isPrime1 => markLoop inner fuel N ((i + 2) % UINT_MOD) isPrime1
        | Run.outOfBounds => Run.outOfBounds
        | Run.outOfFuel => Run.outOfFuel
      | some false => markLoop inner fuel N ((i + 2) % UINT_MOD) isPrime
    else Run.done isPrime

/-- The registration loop
`for (uint_t i = ...; i <= N; i += 2) if (isPrime[i]) addSievingPrime(i);`
entered with the current value of `i`; `calls` are the arguments of the calls of
`addSievingPrime` made so far, oldest first. -/
def registerLoop : Nat → Nat → Nat → List Bool → List Nat → Run (List Nat)
  | 0, _, _, _, _ => Run.outOfFuel
  | fuel + 1, N, i, isPrime, calls =>
    if i ≤ N then
      match isPrime[i]? with
      | none => Run.outOfBounds
      | some b => registerLoop fuel N ((i + 2) % UINT_MOD) isPrime (if b then calls ++ [i] else calls)
    else Run.done calls

/-- The start value `P + ~P % 2` of the registration loop. -/
def firstIndex (P : Nat) : Nat := (P + bitNot P % 2) % UINT_MOD

/-- The function `PrimeGenerator::generateTinyPrimes`, for `getPreSieve() = preSieve` and
`getSqrtStop() = N`; the result lists the arguments of the calls of `addSievingPrime`
in the order of the calls. Every loop may evaluate its test `fuel` times. -/
def generateTinyPrimes (fuel preSieve N : Nat) : Run (List Nat) :=
  let P := (preSieve + 1) % UINT_MOD
  let isPrime := List.replicate ((N + 1) % UINT_MOD) true
  match markLoop fuel fuel N 3 isPrime with
  | Run.done isPrime1 => registerLoop fuel N (firstIndex P) isPrime1 []
  | Run.outOfBounds => Run.outOfBounds
  | Run.outOfFuel => Run.outOfFuel

/-! ## Loop invariants of generateTinyPrimes -/

/-- The index `k` is an odd multiple `d * m` with `3 ≤ d < i`, `d` odd and `d ≤ m`:
the numbers the marking loop has cleared when it reaches `i`. -/
def Crossed (i k : Nat) : Prop :=
  ∃ d m, 3 ≤ d ∧ d < i ∧ d % 2 = 1 ∧ m % 2 = 1 ∧ d ≤ m ∧ k = d * m

/-- Invariant of the outer marking loop at the test of `i`. -/
def MarkInv (N i : Nat) (isPrime : List Bool) : Prop :=
  isPrime.length = N + 1 ∧
    ∀ k, k ≤ N → (Crossed i k → isPrime[k]? = some false) ∧
      (¬ Crossed i k → isPrime[k]? = some true)

/-! ## The naive marking of the specification -/

/-- Naive marking for one `i`, in the words of the specification: clear every odd
multiple `3i, 5i, 7i, ...` that is at most `N`. -/
def naiveCross (N i : Nat) (isPrime : List Bool) : List Bool :=
  ((List.range (N + 1)).filter (fun m => 3 ≤ m ∧ m % 2 = 1 ∧ i * m ≤ N)).foldl
    (fun a m => a.set (i * m) false) isPrime

/-- Naive marking, in the words of the specification: for every odd `i` from 3 upward,
clear every odd multiple of `i` from `3i` on, starting from the all-true array. -/
def naiveMark (N : Nat) : List Bool :=
  ((List.range (N + 1)).filter (fun i => 3 ≤ i ∧ i % 2 = 1)).foldl
    (fun a i => naiveCross N i a) (List.replicate (N + 1) true)

/-! ## PrimeGenerator.cpp and PrimeNumberGenerator.h: construction -/

/-- The part of a finder that a generator reads: `getPreSieve()` and `getSqrtStop()`. -/
structure PrimeFinder where
  getPreSieve : Nat
  getSqrtStop : Nat
deriving DecidableEq

/-- Modelled from the spec: the base class `SieveOfEratosthenes`, whose header is not
among the sources; an instance sieves the interval `[start, stop]` with the given
sieve size, `preSieve` is the fourth argument of the older constructor. -/
structure SieveOfEratosthenes where
  start : Nat
  stop : Nat
  sieveSize : Nat
  preSieve : Option Nat
deriving DecidableEq

/-- The constructor `PrimeGenerator::PrimeGenerator(PrimeFinder& finder)`; the constant
`config::SIEVESIZE` is a parameter. The sum `finder.getPreSieve() + 1` is a `uint_t`. -/
def PrimeGenerator.PrimeGenerator (finder : PrimeFinder) (sieveSize : Nat) :
    SieveOfEratosthenes :=
  { start := (finder.getPreSieve + 1) % UINT_MOD
    stop := finder.getSqrtStop
    sieveSize := sieveSize
    preSieve := none }

/-- The constructor `PrimeNumberGenerator::PrimeNumberGenerator(PrimeNumberFinder& finder)`;
the constants `config::SIEVESIZE` and `config::PRESIEVE_GENERATOR` are parameters. -/
def PrimeNumberGenerator.PrimeNumberGenerator (finder : PrimeFinder)
    (sieveSize preSieveGenerator : Nat) : SieveOfEratosthenes :=
  { start := (finder.getPreSieve + 1) % UINT_MOD
    stop := finder.getSqrtStop
    sieveSize := sieveSize
    preSieve := some preSieveGenerator }

/-! ## PrimeGenerator.cpp: segmentFinished -/

/-- The calls of `addSievingPrime` received by the generator itself and by the finder
it feeds, oldest first. -/
structure Engines where
  generator : List Nat
  finder : List Nat
deriving DecidableEq

/-- The call `finder_.addSievingPrime(p)`. -/
def Engines.finderAddSievingPrime (e : Engines) (p : Nat) : Engines :=
  { e with finder := e.finder ++ [p] }

/-- Modelled from the spec: the macro `GENERATE_PRIMES` of
`SieveOfEratosthenes-GENERATE.h`, which is not among the sources. It decodes every set
bit of the bytes `sieve[0..sieveSize)` into its value, `low` plus 30 per byte plus the
offset of the bit, and hands each value to `callback`. -/
def GENERATE_PRIMES {σ : Type} (callback : σ → Nat → σ) (low : Nat) (sieve : Nat → Nat)
    (sieveSize : Nat) (s : σ) : σ :=
  (List.range sieveSize).foldl
    (fun s k => (List.range 8).foldl
      (fun s b =>
        if (sieve k).testBit b then
          callback s (low + NUMBERS_PER_BYTE * k + bitOffsets.getD b 0)
        else s) s) s

/-- The function `PrimeGenerator::generate`; `low` is the base value of the segment. -/
def PrimeGenerator.generate (low : Nat) (sieve : Nat → Nat) (sieveSize : Nat)
    (e : Engines) : Engines :=
  GENERATE_PRIMES Engines.finderAddSievingPrime low sieve sieveSize e

/-- The callback `PrimeGenerator::segmentFinished`. -/
def PrimeGenerator.segmentFinished (low : Nat) (sieve : Nat → Nat) (sieveSize : Nat)
    (e : Engines) : Engines :=
  PrimeGenerator.generate low sieve sieveSize e

/-- The callback `PrimeNumberGenerator::segmentProcessed`, which hands the values to
`finder_.sieve`, the registration of a sieving prime on the finder. -/
def PrimeNumberGenerator.segmentProcessed (low : Nat) (sieve : Nat → Nat) (sieveSize : Nat)
    (e : Engines) : Engines :=
  GENERATE_PRIMES Engines.finderAddSievingPrime low sieve sieveSize e

/-- Bit `b` of a byte stands for `n`: `n` has the residue of the offset of `b`. -/
def standsFor (b n : Nat) : Prop :=
  ∃ o, bitOffsets[b]? = some o ∧ n % NUMBERS_PER_BYTE = o % NUMBERS_PER_BYTE

/-! ## Tiers and thread intervals -/

/-- Modelled from the spec: the Small tier of a sieving prime `p` for a segment of `s`
bytes, `p ≤ s × FACTOR_ERATSMALL`; the dispatch of `addSievingPrime` is not among the
sources. -/
def tierSmall (s p : Nat) : Prop := (p : ℚ) ≤ (s : ℚ) * config.FACTOR_ERATSMALL

/-- Modelled from the spec: the Medium tier, `p ≤ s × FACTOR_ERATMEDIUM` and `p` above
the Small threshold. -/
def tierMedium (s p : Nat) : Prop :=
  (s : ℚ) * config.FACTOR_ERATSMALL < (p : ℚ) ∧ (p : ℚ) ≤ (s : ℚ) * config.FACTOR_ERATMEDIUM

/-- Modelled from the spec: the Big tier, `p` above the Medium threshold. -/
def tierBig (s p : Nat) : Prop := (s : ℚ) * config.FACTOR_ERATMEDIUM < (p : ℚ)

instance (s p : Nat) : Decidable (tierSmall s p) := by unfold tierSmall; infer_instance

instance (s p : Nat) : Decidable (tierMedium s p) := by unfold tierMedium; infer_instance

instance (s p : Nat) : Decidable (tierBig s p) := by unfold tierBig; infer_instance

/-- Modelled from the spec: the clamp of a target interval length to
`[MIN_THREAD_INTERVAL, MAX_THREAD_INTERVAL]`; the scheduler is not among the sources. -/
def clampThreadInterval (t : Nat) : Nat :=
  max config.MIN_THREAD_INTERVAL (min t config.MAX_THREAD_INTERVAL)

/-! ## generateTinyPrimes over unbounded naturals -/

/-- The inner marking loop over unbounded naturals: the loop of `crossOff` without the
reduction modulo `2 ^ 32` and without fuel. The measure `N + 1 - j` decreases because
the stride `i * 2` is positive. -/
def crossOffNat (N i : Nat) (hi : 0 < i) (j : Nat) (isPrime : List Bool) : Run (List Bool) :=
  if j ≤ N then
    if j < isPrime.length then
      crossOffNat N i hi (j + i * 2) (isPrime.set j false)
    else Run.outOfBounds
  else Run.done isPrime
termination_by N + 1 - j
decreasing_by omega

/-- The outer marking loop over unbounded naturals. The measure `N + 1 - i` decreases
because `i * i ≤ N` gives `i ≤ N`. -/
def markLoopNat (N i : Nat) (hi : 0 < i) (isPrime : List Bool) : Run (List Bool) :=
  if i * i ≤ N then
    match isPrime[i]? with
    | none => Run.outOfBounds
    | some true =>
      match crossOffNat N i hi (i * i) isPrime with
      | Run.done isPrime1 => markLoopNat N (i + 2) (Nat.succ_pos _) isPrime1
      | Run.outOfBounds => Run.outOfBounds
      | Run.outOfFuel => Run.outOfFuel
    | some false => markLoopNat N (i + 2) (Nat.succ_pos _) isPrime
  else Run.done isPrime
termination_by N + 1 - i
decreasing_by
  all_goals
    have := Nat.le_mul_self i
    omega

/-- The registration loop over unbounded naturals, with the measure `N + 1 - i`. -/
def registerLoopNat (N i : Nat) (isPrime : List Bool) (calls : List Nat) : Run (List Nat) :=
  if i ≤ N then
    match isPrime[i]? with
    | none => Run.outOfBounds
    | some b => registerLoopNat N (i + 2) isPrime (if b then calls ++ [i] else calls)
  else Run.done calls
termination_by N + 1 - i
decreasing_by all_goals omega

/-- The function `generateTinyPrimes` over unbounded naturals: no sum or product is
reduced modulo `2 ^ 32`; the complement `~P` stays the 32-bit operation. -/
def generateTinyPrimesNat (preSieve N : Nat) : Run (List Nat) :=
  let P := preSieve + 1
  let isPrime := List.replicate (N + 1) true
  match markLoopNat N 3 (by decide) isPrime with
  | Run.done isPrime1 => registerLoopNat N (P + bitNot P % 2) isPrime1 []
  | Run.outOfBounds => Run.outOfBounds
  | Run.outOfFuel => Run.outOfFuel

/-! ## generateTinyPrimes with checked arithmetic -/

/-- Outcome of a run that also reports a sum or product that does not fit a `uint_t`. -/
inductive Checked (α : Type) where
  | done (a : α) : Checked α
  | outOfBounds : Checked α
  | outOfFuel : Checked α
  | wrapped : Checked α
deriving DecidableEq

/-- A run without arithmetic fault, as a checked run. -/
def Run.toChecked {α : Type} : Run α → Checked α
  | Run.done a => Checked.done a
  | Run.outOfBounds => Checked.outOfBounds
  | Run.outOfFuel => Checked.outOfFuel

/-- The inner marking loop with every `i * 2` and `j + i * 2` checked against `2 ^ 32`. -/
def crossOffChecked : Nat → Nat → Nat → Nat → List Bool → Checked (List Bool)
  | 0, _, _, _, _ => Checked.outOfFuel
  | fuel + 1, N, i, j, isPrime =>
    if j ≤ N then
      if j < isPrime.length then
        if i * 2 < UINT_MOD ∧ j + i * 2 < UINT_MOD then
          crossOffChecked fuel N i (j + i * 2) (isPrime.set j false)
        else Checked.wrapped
      else Checked.outOfBounds
    else Checked.done isPrime

/-- The outer marking loop with every `i * i` and `i + 2` checked against `2 ^ 32`. -/
def markLoopChecked (inner : Nat) : Nat → Nat → Nat → List Bool → Checked (List Bool)
  | 0, _, _, _ => Checked.outOfFuel
  | fuel + 1, N, i, isPrime =>
    if i * i < UINT_MOD then
      if i * i ≤ N then
        match isPrime[i]? with
        | none => Checked.outOfBounds
        | some true =>
          match crossOffChecked inner N i (i * i) isPrime with
          | Checked.done isPrime1 =>
            if i + 2 < UINT_MOD then markLoopChecked inner fuel N (i + 2) isPrime1
            else Checked.wrapped
          | Checked.outOfBounds => Checked.outOfBounds
          | Checked.outOfFuel => Checked.outOfFuel
          | Checked.wrapped => Checked.wrapped
        | some false =>
          if i + 2 < UINT_MOD then markLoopChecked inner fuel N (i + 2) isPrime
          else Checked.wrapped
      else Checked.done isPrime
    else Checked.wrapped

/-- The registration loop with every `i + 2` checked against `2 ^ 32`. -/
def registerLoopChecked : Nat → Nat → Nat → List Bool → List Nat → Checked (List Nat)
  | 0, _, _, _, _ => Checked.outOfFuel
  | fuel + 1, N, i, isPrime, calls =>
    if i ≤ N then
      match isPrime[i]? with
      | none => Checked.outOfBounds
      | some b =>
        if i + 2 < UINT_MOD then
          registerLoopChecked fuel N (i + 2) isPrime (if b then calls ++ [i] else calls)
        else Checked.wrapped
    else Checked.done calls

/-- The marking part of `generateTinyPrimes` with checked arithmetic: the vector of
`N + 1` entries and the marking loops. -/
def markChecked (fuel N : Nat) : Checked (List Bool) :=
  if N + 1 < UINT_MOD then
    markLoopChecked fuel fuel N 3 (List.replicate (N + 1) true)
  else Checked.wrapped

/-- The function `generateTinyPrimes` with checked arithmetic: `getPreSieve() + 1`,
`N + 1`, `P + ~P % 2` and the arithmetic of the loops must stay below `2 ^ 32`. -/
def generateTinyPrimesChecked (fuel preSieve N : Nat) : Checked (List Nat) :=
  if preSieve + 1 < UINT_MOD then
    match markChecked fuel N with
    | Checked.done isPrime1 =>
      if (preSieve + 1) + bitNot (preSieve + 1) % 2 < UINT_MOD then
        registerLoopChecked fuel N ((preSieve + 1) + bitNot (preSieve + 1) % 2) isPrime1 []
      else Checked.wrapped
    | Checked.outOfBounds => Checked.outOfBounds
    | Checked.outOfFuel => Checked.outOfFuel
    | Checked.wrapped => Checked.wrapped
  else Checked.wrapped

/-! ## PrimeGenerator.cpp: doIt -/

/-- The calls a generator makes or receives, in program order; `store p` is the
storing of a sieving prime in its tier. -/
inductive Call where
  | addSievingPrime (p : Nat) : Call
  | store (p : Nat) : Call
  | sieve : Call
  | sieveSegment (low : Nat) : Call
  | segmentFinished (low : Nat) : Call
  | doIt : Call
  | newGenerator : Call
deriving DecidableEq

/-- A call that sieves: the call of `sieve`, a sieved segment or a `segmentFinished`
callback. -/
def Call.sieves : Call → Bool
  | Call.sieve => true
  | Call.sieveSegment _ => true
  | Call.segmentFinished _ => true
  | _ => false

/-- Modelled from the spec: the body of `addSievingPrime`, which is not among the
sources, is the parameter `addCalls` (the calls made inside `addSievingPrime(p)`); by
the contract of the Sieve Core it "registers p into the correct tier" and does nothing
else: it makes no call that sieves, constructs no generator and does not call `doIt`. -/
def RegistersOnly (addCalls : Nat → List Call) : Prop :=
  ∀ p c, c ∈ addCalls p → c.sieves = false ∧ c ≠ Call.doIt ∧ c ≠ Call.newGenerator

/-- The function `PrimeGenerator::doIt`: `generateTinyPrimes(); sieve();`. The bodies of
`addSievingPrime` and `sieve()` are not among the sources: `addCalls` gives the calls
made inside `addSievingPrime(p)`, `sieveCalls` the calls made inside `sieve()` for the
sieving primes registered so far. -/
def doIt (fuel preSieve N : Nat) (addCalls : Nat → List Call)
    (sieveCalls : List Nat → List Call) : Run (List Call) :=
  match generateTinyPrimes fuel preSieve N with
  | Run.done primes =>
    Run.done (primes.flatMap (fun p => Call.addSievingPrime p :: addCalls p) ++
      Call.sieve :: sieveCalls primes)
  | Run.outOfBounds => Run.outOfBounds
  | Run.outOfFuel => Run.outOfFuel

/-! ## Proofs -/

theorem uint_mod_eq : UINT_MOD = 4294967296 := by decide

theorem crossOff_spec (N i : Nat) (hi : 0 < i) (hi16 : i < 65536) (hN : N < 65536) :
    ∀ (fuel j : Nat) (a : List Bool), a.length = N + 1 → N + 1 - j < fuel →
      ∃ b, crossOff fuel N i j a = Run.done b ∧ b.length = N + 1 ∧
        (∀ k, k ≤ N → (∃ t, k = j + i * 2 * t) → b[k]? = some false) ∧
        (∀ k, (¬ ∃ t, k = j + i * 2 * t) → b[k]? = a[k]?) := by
  intro fuel
  induction fuel with
  | zero => intro j a _ h; omega
  | succ fuel ih =>
    intro j a ha hf
    unfold crossOff
    by_cases hj : j ≤ N
    · have hlen : j < a.length := by omega
      have hw : (j + (i * 2) % UINT_MOD) % UINT_MOD = j + i * 2 := by
        rw [uint_mod_eq]; omega
      simp only [hj, hlen, if_true, hw]
      obtain ⟨b, hb, hbl, hb1, hb2⟩ :=
        ih (j + i * 2) (a.set j false) (by simp [ha]) (by omega)
      refine ⟨b, hb, hbl, ?_, ?_⟩
      · intro k hk ⟨t, ht⟩
        rcases Nat.eq_zero_or_pos t with h0 | hpos
        · subst h0
          have hkj : k = j := by simpa using ht
          subst hkj
          have hno : ¬ ∃ t, k = k + i * 2 + i * 2 * t := by
            rintro ⟨t, ht⟩
            have : 0 < i * 2 := by omega
            have := Nat.le_add_right (k + i * 2) (i * 2 * t)
            omega
          rw [hb2 k hno, List.getElem?_set_self hlen]
        · apply hb1 k hk
          refine ⟨t - 1, ?_⟩
          obtain ⟨s, rfl⟩ : ∃ s, t = s + 1 := ⟨t - 1, by omega⟩
          simp only [Nat.add_sub_cancel]
          rw [ht]; ring
      · intro k hk
        have hno : ¬ ∃ t, k = j + i * 2 + i * 2 * t := by
          rintro ⟨t, ht⟩
          exact hk ⟨t + 1, by rw [ht]; ring⟩
        rw [hb2 k hno]
        have hne : j ≠ k := by
          rintro rfl
          exact hk ⟨0, by simp⟩
        exact List.getElem?_set_ne hne
    · simp only [hj, if_false]
      refine ⟨a, rfl, ha, ?_, ?_⟩
      · intro k hk ⟨t, ht⟩
        have := Nat.le_add_right j (i * 2 * t)
        omega
      · intro k _; rfl

theorem odd_mul_odd {a b : Nat} (ha : a % 2 = 1) (hb : b % 2 = 1) : (a * b) % 2 = 1 := by
  rw [Nat.mul_mod, ha, hb]

theorem crossed_mono {i k : Nat} (h : Crossed i k) : Crossed (i + 2) k := by
  obtain ⟨d, m, h1, h2, h3, h4, h5, h6⟩ := h
  exact ⟨d, m, h1, by omega, h3, h4, h5, h6⟩

theorem crossed_step {i k : Nat} (hodd : i % 2 = 1) (h : Crossed (i + 2) k) :
    Crossed i k ∨ ∃ m, m % 2 = 1 ∧ i ≤ m ∧ k = i * m := by
  obtain ⟨d, m, h1, h2, h3, h4, h5, h6⟩ := h
  by_cases hd : d < i
  · exact Or.inl ⟨d, m, h1, hd, h3, h4, h5, h6⟩
  · have : d = i := by omega
    subst this
    exact Or.inr ⟨m, h4, h5, h6⟩

theorem crossed_multiple {i m : Nat} (h : Crossed i i) (hm : m % 2 = 1) :
    Crossed i (i * m) := by
  obtain ⟨d, e, h1, h2, h3, h4, h5, h6⟩ := h
  refine ⟨d, e * m, h1, h2, h3, odd_mul_odd h4 hm, ?_, ?_⟩
  · have h1m : 1 ≤ m := by omega
    calc d ≤ e := h5
      _ = e * 1 := (Nat.mul_one e).symm
      _ ≤ e * m := Nat.mul_le_mul_left e h1m
  · rw [← Nat.mul_assoc, ← h6]

theorem progression_iff {i k : Nat} (hodd : i % 2 = 1) :
    (∃ t, k = i * i + i * 2 * t) ↔ ∃ m, m % 2 = 1 ∧ i ≤ m ∧ k = i * m := by
  constructor
  · rintro ⟨t, rfl⟩
    exact ⟨i + 2 * t, by omega, by omega, by ring⟩
  · rintro ⟨m, hm, him, rfl⟩
    obtain ⟨t, rfl⟩ : ∃ t, m = i + 2 * t := ⟨(m - i) / 2, by omega⟩
    exact ⟨t, by ring⟩

theorem sq_lt_uint {i : Nat} (h : i < 65536) : i * i < 4294967296 := by
  have h1 : i ≤ 65535 := by omega
  have := Nat.mul_le_mul h1 h1
  omega

theorem lt_of_sq_le {i N : Nat} (h : i * i ≤ N) (hN : N < 65536) : i < 256 := by
  by_contra hc
  have h1 : 256 ≤ i := by omega
  have := Nat.mul_le_mul h1 h1
  omega

theorem markLoop_spec (N inner : Nat) (hN : N < 65536) (hinner : N + 1 < inner) :
    ∀ (fuel i : Nat) (a : List Bool), i % 2 = 1 → 3 ≤ i → i < 65536 → MarkInv N i a →
      N + 1 - i < fuel →
      ∃ b i1, markLoop inner fuel N i a = Run.done b ∧ MarkInv N i1 b ∧ N < i1 * i1 := by
  intro fuel
  induction fuel with
  | zero => intro i a _ _ _ _ h; omega
  | succ fuel ih =>
    intro i a hodd h3 h16 hinv hf
    unfold markLoop
    have hsq : (i * i) % UINT_MOD = i * i := by
      rw [uint_mod_eq]; exact Nat.mod_eq_of_lt (sq_lt_uint h16)
    rw [hsq]
    by_cases hle : i * i ≤ N
    · have hi256 := lt_of_sq_le hle hN
      have hiN : i ≤ N := le_trans (Nat.le_mul_self i) hle
      have hnext : (i + 2) % UINT_MOD = i + 2 := by rw [uint_mod_eq]; omega
      simp only [hle, if_true, hnext]
      obtain ⟨hlen, hk⟩ := hinv
      by_cases hc : Crossed i i
      · rw [(hk i hiN).1 hc]
        apply ih (i + 2) a (by omega) (by omega) (by omega) _ (by omega)
        refine ⟨hlen, fun k hkN => ⟨fun h => ?_, fun h => ?_⟩⟩
        · rcases crossed_step hodd h with h1 | ⟨m, hm, _, rfl⟩
          · exact (hk k hkN).1 h1
          · exact (hk _ hkN).1 (crossed_multiple hc hm)
        · exact (hk k hkN).2 (fun h1 => h (crossed_mono h1))
      · rw [(hk i hiN).2 hc]
        obtain ⟨b, hb, hbl, hb1, hb2⟩ :=
          crossOff_spec N i (by omega) h16 hN inner (i * i) a hlen (by omega)
        simp only [hb]
        apply ih (i + 2) b (by omega) (by omega) (by omega) _ (by omega)
        refine ⟨hbl, fun k hkN => ⟨fun h => ?_, fun h => ?_⟩⟩
        · by_cases hp : ∃ t, k = i * i + i * 2 * t
          · exact hb1 k hkN hp
          · rw [hb2 k hp]
            rcases crossed_step hodd h with h1 | h1
            · exact (hk k hkN).1 h1
            · exact absurd ((progression_iff hodd).2 h1) hp
        · have hp : ¬ ∃ t, k = i * i + i * 2 * t := by
            intro hp
            obtain ⟨m, hm, him, rfl⟩ := (progression_iff hodd).1 hp
            exact h ⟨i, m, h3, by omega, hodd, hm, him, rfl⟩
          rw [hb2 k hp]
          exact (hk k hkN).2 (fun h1 => h (crossed_mono h1))
    · simp only [hle, if_false]
      exact ⟨a, i, rfl, hinv, by omega⟩

theorem markInv_init (N : Nat) : MarkInv N 3 (List.replicate (N + 1) true) := by
  refine ⟨by simp, fun k hk => ⟨fun h => ?_, fun _ => ?_⟩⟩
  · obtain ⟨d, m, h1, h2, _⟩ := h
    omega
  · rw [List.getElem?_replicate, if_pos (by omega)]

theorem odd_composite_factor {k : Nat} (hodd : k % 2 = 1) (h3 : 3 ≤ k) (hp : ¬ Nat.Prime k) :
    ∃ d m, 3 ≤ d ∧ d % 2 = 1 ∧ m % 2 = 1 ∧ d ≤ m ∧ k = d * m := by
  have hdp : Nat.Prime k.minFac := Nat.minFac_prime (by omega)
  have hdvd : k.minFac ∣ k := Nat.minFac_dvd k
  have hle : k.minFac ≤ k / k.minFac := Nat.minFac_le_div (by omega) hp
  have hmul : k = k.minFac * (k / k.minFac) := (Nat.mul_div_cancel' hdvd).symm
  have hdodd : k.minFac % 2 = 1 := by
    rcases Nat.even_or_odd k.minFac with he | ho
    · have h2 : 2 ∣ k := dvd_trans (even_iff_two_dvd.1 he) hdvd
      omega
    · exact Nat.odd_iff.1 ho
  have hmodd : (k / k.minFac) % 2 = 1 := by
    rcases Nat.even_or_odd (k / k.minFac) with he | ho
    · have h2 : 2 ∣ k := by
        rw [hmul]
        exact dvd_mul_of_dvd_right (even_iff_two_dvd.1 he) _
      omega
    · exact Nat.odd_iff.1 ho
  have hd2 := hdp.two_le
  exact ⟨k.minFac, k / k.minFac, by omega, hdodd, hmodd, hle, hmul⟩

theorem sieve_correct {N i k : Nat} {b : List Bool} (hinv : MarkInv N i b) (hi : N < i * i)
    (hodd : k % 2 = 1) (h3 : 3 ≤ k) (hk : k ≤ N) : b[k]? = some (decide (Nat.Prime k)) := by
  by_cases hp : Nat.Prime k
  · have hnc : ¬ Crossed i k := by
      rintro ⟨d, m, h1, _, _, _, h5, rfl⟩
      exact Nat.not_prime_mul (by omega) (by omega) hp
    rw [(hinv.2 k hk).2 hnc]
    simp [hp]
  · have hc : Crossed i k := by
      obtain ⟨d, m, hd3, hdo, hmo, hdm, hmul⟩ := odd_composite_factor hodd h3 hp
      have hlt : d < i := by
        by_contra hge
        have h1 : i ≤ d := by omega
        have h2 : i * i ≤ d * m := Nat.mul_le_mul h1 (le_trans h1 hdm)
        omega
      exact ⟨d, m, hd3, hlt, hdo, hmo, hdm, hmul⟩
    rw [(hinv.2 k hk).1 hc]
    simp [hp]

theorem registerLoop_spec (N : Nat) (hN : N + 1 < UINT_MOD) (a : List Bool)
    (ha : a.length = N + 1) :
    ∀ (fuel i : Nat) (calls : List Nat), i % 2 = 1 → N + 1 - i < fuel →
      ∃ out, registerLoop fuel N i a calls = Run.done (calls ++ out) ∧
        out.Pairwise (fun x y => x < y) ∧
        ∀ k, k ∈ out ↔ (i ≤ k ∧ k ≤ N ∧ k % 2 = 1 ∧ a[k]? = some true) := by
  intro fuel
  induction fuel with
  | zero => intro i _ _ h; omega
  | succ fuel ih =>
    intro i calls hodd hf
    unfold registerLoop
    by_cases hle : i ≤ N
    · have hnext : (i + 2) % UINT_MOD = i + 2 := by
        rw [uint_mod_eq] at *; omega
      have hget : a[i]? = some a[i] := List.getElem?_eq_getElem (by omega)
      simp only [hle, if_true, hnext, hget]
      obtain ⟨out, ho, hp, hm⟩ :=
        ih (i + 2) (if a[i] = true then calls ++ [i] else calls) (by omega) (by omega)
      by_cases hb : a[i] = true
      · refine ⟨i :: out, ?_, ?_, ?_⟩
        · rw [ho]; simp [hb]
        · rw [List.pairwise_cons]
          refine ⟨fun y hy => ?_, hp⟩
          have := (hm y).1 hy
          omega
        · intro k
          rw [List.mem_cons, hm k]
          constructor
          · rintro (rfl | ⟨h1, h2, h3, h4⟩)
            · exact ⟨le_refl _, hle, hodd, by rw [hget, hb]⟩
            · exact ⟨by omega, h2, h3, h4⟩
          · rintro ⟨h1, h2, h3, h4⟩
            by_cases hki : k = i
            · exact Or.inl hki
            · exact Or.inr ⟨by omega, h2, h3, h4⟩
      · refine ⟨out, ?_, hp, ?_⟩
        · rw [ho]; simp [hb]
        · intro k
          rw [hm k]
          constructor
          · rintro ⟨h1, h2, h3, h4⟩
            exact ⟨by omega, h2, h3, h4⟩
          · rintro ⟨h1, h2, h3, h4⟩
            have hki : k ≠ i := by
              rintro rfl
              rw [hget] at h4
              exact hb (Option.some.inj h4)
            exact ⟨by omega, h2, h3, h4⟩
    · simp only [hle, if_false]
      refine ⟨[], by simp, List.Pairwise.nil, ?_⟩
      intro k
      simp only [List.not_mem_nil, false_iff]
      rintro ⟨h1, h2, _⟩
      omega

theorem firstIndex_odd {P : Nat} (hP : P < UINT_MOD) (h : P % 2 = 1) : firstIndex P = P := by
  unfold firstIndex bitNot
  rw [uint_mod_eq] at *
  omega

theorem firstIndex_even {P : Nat} (hP : P < UINT_MOD) (h : P % 2 = 0) :
    firstIndex P = P + 1 := by
  unfold firstIndex bitNot
  rw [uint_mod_eq] at *
  omega

theorem firstIndex_is_odd {P : Nat} (hP : P < UINT_MOD) : firstIndex P % 2 = 1 := by
  rcases Nat.mod_two_eq_zero_or_one P with h | h
  · rw [firstIndex_even hP h]; omega
  · rw [firstIndex_odd hP h]; exact h

theorem not_crossed_small {i k : Nat} (h : k % 2 = 0 ∨ k < 3) : ¬ Crossed i k := by
  rintro ⟨d, m, h1, _, h3, h4, h5, rfl⟩
  have hodd := odd_mul_odd h3 h4
  have := Nat.mul_le_mul h1 (le_trans h1 h5)
  omega

theorem markLoop_run (N fuel : Nat) (hN : N < 65536) (hf : N + 2 ≤ fuel) :
    ∃ a, markLoop fuel fuel N 3 (List.replicate ((N + 1) % UINT_MOD) true) = Run.done a ∧
      a.length = N + 1 ∧
      (∀ k, k % 2 = 1 → 3 ≤ k → k ≤ N → a[k]? = some (decide (Nat.Prime k))) ∧
      (∀ k, k % 2 = 0 ∨ k < 3 → k ≤ N → a[k]? = some true) := by
  have hlen : (N + 1) % UINT_MOD = N + 1 := by rw [uint_mod_eq]; omega
  rw [hlen]
  obtain ⟨a, i1, ha, hinv, hi1⟩ :=
    markLoop_spec N fuel hN (by omega) fuel 3 _ (by decide) (le_refl 3) (by decide)
      (markInv_init N) (by omega)
  exact ⟨a, ha, hinv.1, fun k hodd h3 hk => sieve_correct hinv hi1 hodd h3 hk,
    fun k hs hk => (hinv.2 k hk).2 (not_crossed_small hs)⟩

theorem generateTinyPrimes_run (L N fuel : Nat) (hN : N < 65536) (hf : N + 2 ≤ fuel) :
    ∃ out, generateTinyPrimes fuel L N = Run.done out ∧
      out.Pairwise (fun x y => x < y) ∧
      ∀ k, k ∈ out ↔ (firstIndex ((L + 1) % UINT_MOD) ≤ k ∧ k ≤ N ∧ k % 2 = 1 ∧
        (k = 1 ∨ Nat.Prime k)) := by
  obtain ⟨a, ha, hlen, hprime, hsmall⟩ := markLoop_run N fuel hN hf
  have hP : (L + 1) % UINT_MOD < UINT_MOD := Nat.mod_lt _ (by rw [uint_mod_eq]; omega)
  obtain ⟨out, ho, hpw, hm⟩ :=
    registerLoop_spec N (by rw [uint_mod_eq]; omega) a hlen fuel
      (firstIndex ((L + 1) % UINT_MOD)) [] (firstIndex_is_odd hP) (by omega)
  refine ⟨out, ?_, hpw, ?_⟩
  · unfold generateTinyPrimes
    simp only [ha]
    simpa using ho
  · intro k
    rw [hm k]
    constructor
    · rintro ⟨h1, h2, h3, h4⟩
      refine ⟨h1, h2, h3, ?_⟩
      by_cases hk3 : 3 ≤ k
      · rw [hprime k h3 hk3 h2] at h4
        exact Or.inr (by simpa using h4)
      · exact Or.inl (by omega)
    · rintro ⟨h1, h2, h3, h4⟩
      refine ⟨h1, h2, h3, ?_⟩
      by_cases hk3 : 3 ≤ k
      · rw [hprime k h3 hk3 h2]
        rcases h4 with h4 | h4
        · omega
        · simp [h4]
      · exact hsmall k (Or.inr (by omega)) h2

theorem generateTinyPrimes_primes (L N fuel : Nat) (hL : 5 ≤ L) (hP : L + 1 < UINT_MOD)
    (hN : N < 65536) (hf : N + 2 ≤ fuel) :
    ∃ out, generateTinyPrimes fuel L N = Run.done out ∧
      out.Pairwise (fun x y => x < y) ∧
      ∀ p, p ∈ out ↔ (Nat.Prime p ∧ L < p ∧ p ≤ N) := by
  obtain ⟨out, ho, hpw, hm⟩ := generateTinyPrimes_run L N fuel hN hf
  refine ⟨out, ho, hpw, fun p => ?_⟩
  rw [hm p, Nat.mod_eq_of_lt hP]
  have hfi : firstIndex (L + 1) = L + 1 ∨ firstIndex (L + 1) = L + 2 := by
    rcases Nat.mod_two_eq_zero_or_one (L + 1) with h | h
    · exact Or.inr (firstIndex_even hP h)
    · exact Or.inl (firstIndex_odd hP h)
  have hfo := firstIndex_is_odd hP
  constructor
  · rintro ⟨h1, h2, h3, h4 | h4⟩
    · omega
    · exact ⟨h4, by omega, h2⟩
  · rintro ⟨h1, h2, h3⟩
    have hodd : p % 2 = 1 := by
      rcases h1.eq_two_or_odd with h | h
      · omega
      · exact h
    exact ⟨by omega, h3, hodd, Or.inr h1⟩

/-! ### The naive marking -/

theorem foldl_set_spec (f : Nat → Nat) :
    ∀ (l : List Nat) (a : List Bool),
      (l.foldl (fun a m => a.set (f m) false) a).length = a.length ∧
      ∀ k, k < a.length →
        ((∃ m, m ∈ l ∧ f m = k) → (l.foldl (fun a m => a.set (f m) false) a)[k]? = some false) ∧
        ((¬ ∃ m, m ∈ l ∧ f m = k) → (l.foldl (fun a m => a.set (f m) false) a)[k]? = a[k]?) := by
  intro l
  induction l with
  | nil =>
    intro a
    refine ⟨rfl, fun k _ => ⟨?_, fun _ => rfl⟩⟩
    rintro ⟨m, hm, _⟩
    simp at hm
  | cons x l ih =>
    intro a
    obtain ⟨hlen, hk⟩ := ih (a.set (f x) false)
    rw [List.length_set] at hlen
    rw [List.foldl_cons]
    refine ⟨hlen, fun k hka => ⟨fun h => ?_, fun h => ?_⟩⟩
    · have hka1 : k < (a.set (f x) false).length := by rw [List.length_set]; exact hka
      by_cases hl : ∃ m, m ∈ l ∧ f m = k
      · exact (hk k hka1).1 hl
      · rw [(hk k hka1).2 hl]
        obtain ⟨m, hm, hfm⟩ := h
        rcases List.mem_cons.1 hm with rfl | hm1
        · rw [← hfm]
          exact List.getElem?_set_self (by rw [hfm]; exact hka)
        · exact absurd ⟨m, hm1, hfm⟩ hl
    · have hka1 : k < (a.set (f x) false).length := by rw [List.length_set]; exact hka
      have hl : ¬ ∃ m, m ∈ l ∧ f m = k := by
        rintro ⟨m, hm, hfm⟩
        exact h ⟨m, List.mem_cons_of_mem _ hm, hfm⟩
      rw [(hk k hka1).2 hl]
      have hne : f x ≠ k := fun hfx => h ⟨x, List.mem_cons_self _ _, hfx⟩
      exact List.getElem?_set_ne hne

theorem naiveCross_spec (N i : Nat) (hi : 1 ≤ i) (a : List Bool) (ha : a.length = N + 1) :
    (naiveCross N i a).length = N + 1 ∧
    ∀ k, k ≤ N →
      ((∃ m, 3 ≤ m ∧ m % 2 = 1 ∧ k = i * m) → (naiveCross N i a)[k]? = some false) ∧
      ((¬ ∃ m, 3 ≤ m ∧ m % 2 = 1 ∧ k = i * m) → (naiveCross N i a)[k]? = a[k]?) := by
  unfold naiveCross
  obtain ⟨hlen, hk⟩ := foldl_set_spec (fun m => i * m)
    ((List.range (N + 1)).filter (fun m => 3 ≤ m ∧ m % 2 = 1 ∧ i * m ≤ N)) a
  refine ⟨by rw [hlen, ha], fun k hkN => ⟨fun h => ?_, fun h => ?_⟩⟩
  · apply (hk k (by omega)).1
    obtain ⟨m, h3, hodd, rfl⟩ := h
    refine ⟨m, ?_, rfl⟩
    have hmle : m ≤ i * m := Nat.le_mul_of_pos_left m hi
    simp only [List.mem_filter, List.mem_range, decide_eq_true_eq]
    exact ⟨by omega, h3, hodd, hkN⟩
  · apply (hk k (by omega)).2
    rintro ⟨m, hm, hfm⟩
    simp only [List.mem_filter, List.mem_range, decide_eq_true_eq] at hm
    exact h ⟨m, hm.2.1, hm.2.2.1, hfm.symm⟩

theorem naiveFold_spec (N : Nat) :
    ∀ (l : List Nat) (a : List Bool), (∀ i, i ∈ l → 1 ≤ i) → a.length = N + 1 →
      (l.foldl (fun a i => naiveCross N i a) a).length = N + 1 ∧
      ∀ k, k ≤ N →
        ((∃ i m, i ∈ l ∧ 3 ≤ m ∧ m % 2 = 1 ∧ k = i * m) →
          (l.foldl (fun a i => naiveCross N i a) a)[k]? = some false) ∧
        ((¬ ∃ i m, i ∈ l ∧ 3 ≤ m ∧ m % 2 = 1 ∧ k = i * m) →
          (l.foldl (fun a i => naiveCross N i a) a)[k]? = a[k]?) := by
  intro l
  induction l with
  | nil =>
    intro a _ ha
    refine ⟨ha, fun k _ => ⟨?_, fun _ => rfl⟩⟩
    rintro ⟨i, m, hi, _⟩
    simp at hi
  | cons x l ih =>
    intro a hpos ha
    obtain ⟨hxl, hx⟩ := naiveCross_spec N x (hpos x (List.mem_cons_self _ _)) a ha
    obtain ⟨hlen, hk⟩ := ih (naiveCross N x a)
      (fun i hi => hpos i (List.mem_cons_of_mem _ hi)) hxl
    rw [List.foldl_cons]
    refine ⟨hlen, fun k hkN => ⟨fun h => ?_, fun h => ?_⟩⟩
    · by_cases hl : ∃ i m, i ∈ l ∧ 3 ≤ m ∧ m % 2 = 1 ∧ k = i * m
      · exact (hk k hkN).1 hl
      · rw [(hk k hkN).2 hl]
        obtain ⟨i, m, hi, h3, hodd, hkm⟩ := h
        rcases List.mem_cons.1 hi with rfl | hi1
        · exact (hx k hkN).1 ⟨m, h3, hodd, hkm⟩
        · exact absurd ⟨i, m, hi1, h3, hodd, hkm⟩ hl
    · have hl : ¬ ∃ i m, i ∈ l ∧ 3 ≤ m ∧ m % 2 = 1 ∧ k = i * m := by
        rintro ⟨i, m, hi, hrest⟩
        exact h ⟨i, m, List.mem_cons_of_mem _ hi, hrest⟩
      rw [(hk k hkN).2 hl]
      apply (hx k hkN).2
      rintro ⟨m, hrest⟩
      exact h ⟨x, m, List.mem_cons_self _ _, hrest⟩

theorem naiveMark_correct (N k : Nat) (hodd : k % 2 = 1) (h3 : 3 ≤ k) (hk : k ≤ N) :
    (naiveMark N)[k]? = some (decide (Nat.Prime k)) := by
  unfold naiveMark
  obtain ⟨_, hspec⟩ := naiveFold_spec N
    ((List.range (N + 1)).filter (fun i => 3 ≤ i ∧ i % 2 = 1)) (List.replicate (N + 1) true)
    (fun i hi => by
      simp only [List.mem_filter, List.mem_range, decide_eq_true_eq] at hi
      omega)
    (by simp)
  by_cases hp : Nat.Prime k
  · rw [(hspec k hk).2 ?_]
    · rw [List.getElem?_replicate, if_pos (by omega)]
      simp [hp]
    · rintro ⟨i, m, hi, hm3, _, rfl⟩
      simp only [List.mem_filter, List.mem_range, decide_eq_true_eq] at hi
      exact Nat.not_prime_mul (by omega) (by omega) hp
  · rw [(hspec k hk).1 ?_]
    · simp [hp]
    · obtain ⟨d, m, hd3, hdo, hmo, hdm, hmul⟩ := odd_composite_factor hodd h3 hp
      refine ⟨d, m, ?_, by omega, hmo, hmul⟩
      have hdk : d ≤ d * m := Nat.le_mul_of_pos_right d (by omega)
      simp only [List.mem_filter, List.mem_range, decide_eq_true_eq]
      exact ⟨by omega, hd3, hdo⟩

/-! ## The claims about generateTinyPrimes -/

/-- C1: for every pre-sieve limit `L ≥ 5` and every `N < 2 ^ 16`, where the limit is a
value for which `P = L + 1` is a `uint_t` (`L + 1 < 2 ^ 32`, so that the assertion
`P > 5` of the source holds), generateTinyPrimes returns once each loop is given `N + 2`
units of fuel, and the values it passes to addSievingPrime are exactly the primes `p`
with `L < p ≤ N`, each once; when `N ≤ L` nothing is registered. -/
theorem generateTinyPrimes_exact (L N fuel : Nat) (hL : 5 ≤ L) (hP : L + 1 < 2 ^ 32)
    (hN : N < 2 ^ 16) (hf : N + 2 ≤ fuel) :
    5 < (L + 1) % UINT_MOD ∧
      ∃ out, generateTinyPrimes fuel L N = Run.done out ∧ out.Nodup ∧
        (∀ p, p ∈ out ↔ (Nat.Prime p ∧ L < p ∧ p ≤ N)) ∧
        (N ≤ L → out = []) := by
  have hP1 : L + 1 < UINT_MOD := by rw [uint_mod_eq]; omega
  refine ⟨by rw [Nat.mod_eq_of_lt hP1]; omega, ?_⟩
  obtain ⟨out, ho, hpw, hm⟩ := generateTinyPrimes_primes L N fuel hL hP1 (by omega) hf
  refine ⟨out, ho, hpw.imp (fun h => Nat.ne_of_lt h), hm, fun hNL => ?_⟩
  apply List.eq_nil_iff_forall_not_mem.2
  intro p hp
  have := (hm p).1 hp
  omega

/-- Witness of C1: the limit 19 and `N = 30` register 23 and 29 only. -/
theorem generateTinyPrimes_exact_witness :
    generateTinyPrimes 32 19 30 = Run.done [23, 29] ∧
      5 < (19 + 1) % UINT_MOD ∧
      ∃ out, generateTinyPrimes 32 19 30 = Run.done out ∧ out.Nodup ∧
        (∀ p, p ∈ out ↔ (Nat.Prime p ∧ 19 < p ∧ p ≤ 30)) ∧
        (30 ≤ 19 → out = []) :=
  ⟨by decide, generateTinyPrimes_exact 19 30 32 (by decide) (by decide) (by decide) (by decide)⟩

/-- C2: the tiny primes suffice for the interval of the generator. For every stop
`1 ≤ stop < 2 ^ 32` (the stop of a generator is a `uint_t`), `N = floor(sqrt(stop))` and
every pre-sieve limit `L ≥ 5`, generateTinyPrimes returns and every composite `n` with
`L < n ≤ stop` is divisible by a prime that is at most `L` or is one of the registered
values. -/
theorem tinyPrimes_sufficient (L stop fuel : Nat) (hL : 5 ≤ L) (h1 : 1 ≤ stop)
    (hstop : stop < 2 ^ 32) (hf : Nat.sqrt stop + 2 ≤ fuel) :
    ∃ out, generateTinyPrimes fuel L (Nat.sqrt stop) = Run.done out ∧
      ∀ n, L < n → n ≤ stop → ¬ Nat.Prime n →
        ∃ p, Nat.Prime p ∧ p ∣ n ∧ (p ≤ L ∨ p ∈ out) := by
  have hN : Nat.sqrt stop < 65536 := by
    rw [Nat.sqrt_lt]; omega
  by_cases hP : L + 1 < UINT_MOD
  · obtain ⟨out, ho, _, hm⟩ := generateTinyPrimes_primes L (Nat.sqrt stop) fuel hL hP hN hf
    refine ⟨out, ho, fun n hLn hn hnp => ?_⟩
    have hpr : Nat.Prime n.minFac := Nat.minFac_prime (by omega)
    refine ⟨n.minFac, hpr, Nat.minFac_dvd n, ?_⟩
    by_cases hle : n.minFac ≤ L
    · exact Or.inl hle
    · refine Or.inr ((hm _).2 ⟨hpr, by omega, ?_⟩)
      rw [Nat.le_sqrt]
      have hsq := Nat.minFac_sq_le_self (by omega : 0 < n) hnp
      rw [pow_two] at hsq
      omega
  · obtain ⟨out, ho, _, _⟩ := generateTinyPrimes_run L (Nat.sqrt stop) fuel hN hf
    refine ⟨out, ho, fun n hLn hn _ => ?_⟩
    rw [uint_mod_eq] at hP
    omega

/-- Witness of C2: the limit 19 and `stop = 1000`, with `floor(sqrt(1000)) = 31`. -/
theorem tinyPrimes_sufficient_witness :
    ∃ out, generateTinyPrimes 40 19 (Nat.sqrt 1000) = Run.done out ∧
      ∀ n, 19 < n → n ≤ 1000 → ¬ Nat.Prime n →
        ∃ p, Nat.Prime p ∧ p ∣ n ∧ (p ≤ 19 ∨ p ∈ out) :=
  tinyPrimes_sufficient 19 1000 40 (by decide) (by decide) (by decide)
    (by rw [show Nat.sqrt 1000 = 31 from (Nat.eq_sqrt.2 ⟨by decide, by decide⟩).symm]
        decide)

/-- C9: the marking loop of generateTinyPrimes and the naive marking of the
specification agree at odd indices. For every `N < 2 ^ 16` the marking loop returns an
array, and at every odd `k` with `3 ≤ k ≤ N` both arrays hold the same value, which is
true exactly when `k` is prime. -/
theorem markLoop_refines_naiveMark (N fuel : Nat) (hN : N < 2 ^ 16) (hf : N + 2 ≤ fuel) :
    ∃ isPrime,
      markLoop fuel fuel N 3 (List.replicate ((N + 1) % UINT_MOD) true) = Run.done isPrime ∧
      ∀ k, k % 2 = 1 → 3 ≤ k → k ≤ N →
        isPrime[k]? = (naiveMark N)[k]? ∧ (isPrime[k]? = some true ↔ Nat.Prime k) := by
  obtain ⟨a, ha, _, hprime, _⟩ := markLoop_run N fuel (by omega) hf
  refine ⟨a, ha, fun k hodd h3 hk => ⟨?_, ?_⟩⟩
  · rw [hprime k hodd h3 hk, naiveMark_correct N k hodd h3 hk]
  · rw [hprime k hodd h3 hk]
    simp

/-- Witness of C9 at `N = 30`. -/
theorem markLoop_refines_naiveMark_witness :
    ∃ isPrime,
      markLoop 32 32 30 3 (List.replicate ((30 + 1) % UINT_MOD) true) = Run.done isPrime ∧
      ∀ k, k % 2 = 1 → 3 ≤ k → k ≤ 30 →
        isPrime[k]? = (naiveMark 30)[k]? ∧ (isPrime[k]? = some true ↔ Nat.Prime k) :=
  markLoop_refines_naiveMark 30 32 (by decide) (by decide)

/-- C10: the registration loop starts at the least odd index that is at least `P`.
For every 32-bit `P` the start value `P + ~P % 2` is `P` when `P` is odd and `P + 1`
when `P` is even, the sum does not wrap, and the start is the least odd number `≥ P`.
With stride 2 the loop visits exactly the odd `i` with `P ≤ i ≤ N`, in increasing
order: on an array of `N + 1` entries it returns and registers exactly the visited
indices whose entry is true. -/
theorem registerLoop_visits_odds (P : Nat) (hP : P < 2 ^ 32) :
    (P % 2 = 1 → firstIndex P = P) ∧ (P % 2 = 0 → firstIndex P = P + 1) ∧
      P + bitNot P % 2 < 2 ^ 32 ∧ firstIndex P = P + bitNot P % 2 ∧
      firstIndex P % 2 = 1 ∧ P ≤ firstIndex P ∧
      (∀ m, P ≤ m → m % 2 = 1 → firstIndex P ≤ m) ∧
      ∀ (N fuel : Nat) (isPrime : List Bool), N + 1 < 2 ^ 32 → isPrime.length = N + 1 →
        N + 2 ≤ fuel →
        ∃ out, registerLoop fuel N (firstIndex P) isPrime [] = Run.done out ∧
          out.Pairwise (fun x y => x < y) ∧
          ∀ i, i ∈ out ↔ (P ≤ i ∧ i ≤ N ∧ i % 2 = 1 ∧ isPrime[i]? = some true) := by
  have hP1 : P < UINT_MOD := by rw [uint_mod_eq]; omega
  have hodd := firstIndex_is_odd hP1
  have hcase : (P % 2 = 1 ∧ firstIndex P = P) ∨ (P % 2 = 0 ∧ firstIndex P = P + 1) := by
    rcases Nat.mod_two_eq_zero_or_one P with h | h
    · exact Or.inr ⟨h, firstIndex_even hP1 h⟩
    · exact Or.inl ⟨h, firstIndex_odd hP1 h⟩
  have hnot : bitNot P % 2 = 1 - P % 2 := by
    unfold bitNot
    rw [uint_mod_eq]
    omega
  refine ⟨fun h => ?_, fun h => ?_, ?_, ?_, hodd, ?_, fun m hm hmo => ?_, ?_⟩
  · exact firstIndex_odd hP1 h
  · exact firstIndex_even hP1 h
  · omega
  · omega
  · omega
  · omega
  · intro N fuel isPrime hN hlen hf
    obtain ⟨out, ho, hpw, hm⟩ :=
      registerLoop_spec N (by rw [uint_mod_eq]; omega) isPrime hlen fuel (firstIndex P) []
        hodd (by omega)
    refine ⟨out, by simpa using ho, hpw, fun i => ?_⟩
    rw [hm i]
    constructor
    · rintro ⟨h1, h2, h3, h4⟩
      exact ⟨by omega, h2, h3, h4⟩
    · rintro ⟨h1, h2, h3, h4⟩
      exact ⟨by omega, h2, h3, h4⟩

/-- Witness of C10 at `P = 20`, whose start value is 21, with `N = 30`: the loop visits
21, 23, 25, 27, 29. -/
theorem registerLoop_visits_odds_witness :
    firstIndex 20 = 21 ∧
      registerLoop 32 30 (firstIndex 20) (List.replicate 31 true) [] =
        Run.done [21, 23, 25, 27, 29] ∧
      ∃ out, registerLoop 32 30 (firstIndex 20) (List.replicate 31 true) [] = Run.done out ∧
        out.Pairwise (fun x y => x < y) ∧
        ∀ i, i ∈ out ↔
          (20 ≤ i ∧ i ≤ 30 ∧ i % 2 = 1 ∧ (List.replicate 31 true)[i]? = some true) :=
  ⟨by decide, by decide,
    (registerLoop_visits_odds 20 (by decide)).2.2.2.2.2.2.2 30 32 (List.replicate 31 true)
      (by decide) (by decide) (by decide)⟩

/-! ## Decoding a finished segment -/

theorem bits_fold (t : Nat → Bool) (v : Nat → Nat) :
    ∀ (l : List Nat) (e : Engines),
      l.foldl (fun s b => if t b then Engines.finderAddSievingPrime s (v b) else s) e =
        { generator := e.generator, finder := e.finder ++ (l.filter t).map v } := by
  intro l
  induction l with
  | nil => intro e; simp
  | cons x l ih =>
    intro e
    rw [List.foldl_cons, ih]
    by_cases hx : t x = true
    · simp [hx, Engines.finderAddSievingPrime]
    · simp [hx]

theorem bitOffsets_getD {b o : Nat} (h : bitOffsets[b]? = some o) :
    b < 8 ∧ bitOffsets.getD b 0 = o := by
  have hb : b < 8 := by
    by_contra hc
    rw [List.getElem?_eq_none (by simp [bitOffsets]; omega)] at h
    simp at h
  refine ⟨hb, ?_⟩
  rw [List.getD_eq_getElem?_getD, h]
  rfl

theorem bitOffsets_bounds : ∀ b, b < 8 →
    bitOffsets[b]? = some (bitOffsets.getD b 0) ∧ 7 ≤ bitOffsets.getD b 0 ∧
      bitOffsets.getD b 0 ≤ 31 := by
  decide

theorem bitOffsets_strictMono : ∀ a, a < 8 → ∀ b, b < 8 → a < b →
    bitOffsets.getD a 0 < bitOffsets.getD b 0 := by
  decide

theorem generate_spec (low : Nat) (sieve : Nat → Nat) (e : Engines) :
    ∀ n, ∃ out,
      GENERATE_PRIMES Engines.finderAddSievingPrime low sieve n e =
        { generator := e.generator, finder := e.finder ++ out } ∧
      out.Pairwise (fun x y => x < y) ∧
      ∀ v, v ∈ out ↔ ∃ k b o, k < n ∧ bitOffsets[b]? = some o ∧
        (sieve k).testBit b = true ∧ v = low + 30 * k + o := by
  intro n
  induction n with
  | zero =>
    refine ⟨[], by simp [GENERATE_PRIMES], List.Pairwise.nil, fun v => ?_⟩
    simp
  | succ n ih =>
    obtain ⟨out, ho, hpw, hm⟩ := ih
    have hblock : ∀ v, v ∈ ((List.range 8).filter (fun b => (sieve n).testBit b)).map
          (fun b => low + NUMBERS_PER_BYTE * n + bitOffsets.getD b 0) ↔
        ∃ b, b < 8 ∧ (sieve n).testBit b = true ∧ v = low + 30 * n + bitOffsets.getD b 0 := by
      intro v
      simp only [List.mem_map, List.mem_filter, List.mem_range, NUMBERS_PER_BYTE]
      constructor
      · rintro ⟨b, ⟨hb, ht⟩, rfl⟩
        exact ⟨b, hb, ht, rfl⟩
      · rintro ⟨b, hb, ht, rfl⟩
        exact ⟨b, ⟨hb, ht⟩, rfl⟩
    refine ⟨out ++ ((List.range 8).filter (fun b => (sieve n).testBit b)).map
      (fun b => low + NUMBERS_PER_BYTE * n + bitOffsets.getD b 0), ?_, ?_, ?_⟩
    · unfold GENERATE_PRIMES at ho ⊢
      rw [show List.range (n + 1) = List.range n ++ [n] from List.range_succ n,
        List.foldl_append, ho, List.foldl_cons, List.foldl_nil, bits_fold]
      simp
    · rw [List.pairwise_append]
      refine ⟨hpw, ?_, ?_⟩
      · rw [List.pairwise_map]
        refine List.Pairwise.imp_of_mem ?_
          (List.Pairwise.filter _ (List.pairwise_lt_range 8))
        intro a b ha hb hab
        have ha8 : a < 8 := List.mem_range.1 (List.mem_of_mem_filter ha)
        have hb8 : b < 8 := List.mem_range.1 (List.mem_of_mem_filter hb)
        have := bitOffsets_strictMono a ha8 b hb8 hab
        omega
      · intro x hx y hy
        obtain ⟨k, b, o, hk, hbo, _, rfl⟩ := (hm x).1 hx
        obtain ⟨b1, hb1, _, rfl⟩ := (hblock y).1 hy
        obtain ⟨hb8, hgo⟩ := bitOffsets_getD hbo
        have h1 := bitOffsets_bounds b hb8
        have h2 := bitOffsets_bounds b1 hb1
        omega
    · intro v
      rw [List.mem_append, hm v, hblock v]
      constructor
      · rintro (⟨k, b, o, hk, hrest⟩ | ⟨b, hb, ht, rfl⟩)
        · exact ⟨k, b, o, by omega, hrest⟩
        · exact ⟨n, b, _, by omega, (bitOffsets_bounds b hb).1, ht, rfl⟩
      · rintro ⟨k, b, o, hk, hbo, ht, rfl⟩
        by_cases hkn : k < n
        · exact Or.inl ⟨k, b, o, hkn, hbo, ht, rfl⟩
        · have hkeq : k = n := by omega
          subst hkeq
          obtain ⟨hb8, hgo⟩ := bitOffsets_getD hbo
          exact Or.inr ⟨b, hb8, ht, by rw [hgo]⟩

/-! ## The claims about construction, decoding and the constants -/

/-- C3: a generator constructed for a finder sieves the interval whose lower bound is
`finder.getPreSieve() + 1`, a `uint_t` sum, and whose upper bound is
`finder.getSqrtStop()`, for every finder and for both generator classes; whenever the
sum is below `2 ^ 32` the lower bound is the pre-sieve limit plus one. -/
theorem generator_interval (finder : PrimeFinder) (sieveSize preSieveGenerator : Nat) :
    (PrimeGenerator.PrimeGenerator finder sieveSize).start =
        (finder.getPreSieve + 1) % 2 ^ 32 ∧
      (PrimeGenerator.PrimeGenerator finder sieveSize).stop = finder.getSqrtStop ∧
      (PrimeNumberGenerator.PrimeNumberGenerator finder sieveSize preSieveGenerator).start =
        (finder.getPreSieve + 1) % 2 ^ 32 ∧
      (PrimeNumberGenerator.PrimeNumberGenerator finder sieveSize preSieveGenerator).stop =
        finder.getSqrtStop ∧
      (finder.getPreSieve + 1 < 2 ^ 32 →
        (PrimeGenerator.PrimeGenerator finder sieveSize).start = finder.getPreSieve + 1 ∧
        (PrimeNumberGenerator.PrimeNumberGenerator finder sieveSize preSieveGenerator).start =
          finder.getPreSieve + 1) := by
  refine ⟨rfl, rfl, rfl, rfl, fun h => ?_⟩
  simp only [PrimeGenerator.PrimeGenerator, PrimeNumberGenerator.PrimeNumberGenerator, UINT_MOD]
  exact ⟨Nat.mod_eq_of_lt h, Nat.mod_eq_of_lt h⟩

/-- Witness of C3: a finder with pre-sieve limit 19 and `getSqrtStop() = 1000` gets a
generator for the interval from 20 to 1000. -/
theorem generator_interval_witness :
    (PrimeGenerator.PrimeGenerator ⟨19, 1000⟩ 32).start = 19 + 1 ∧
      (PrimeNumberGenerator.PrimeNumberGenerator ⟨19, 1000⟩ 32 13).start = 19 + 1 :=
  (generator_interval ⟨19, 1000⟩ 32 13).2.2.2.2 (by decide)

/-- C4: for every finished segment buffer `sieve[0..sieveSize)` with base value `low`,
segmentFinished decodes every set bit (bit `b` of byte `k` stands for
`low + 30 * k + offset_b`) and forwards each decoded value once, and no other value,
to the addSievingPrime of the finder; the generator itself receives no call. -/
theorem segmentFinished_decodes (low : Nat) (sieve : Nat → Nat) (sieveSize : Nat)
    (e : Engines) :
    ∃ out,
      PrimeGenerator.segmentFinished low sieve sieveSize e =
        { generator := e.generator, finder := e.finder ++ out } ∧
      PrimeNumberGenerator.segmentProcessed low sieve sieveSize e =
        { generator := e.generator, finder := e.finder ++ out } ∧
      out.Nodup ∧
      ∀ v, v ∈ out ↔ ∃ k b o, k < sieveSize ∧ bitOffsets[b]? = some o ∧
        (sieve k).testBit b = true ∧ v = low + 30 * k + o := by
  obtain ⟨out, ho, hpw, hm⟩ := generate_spec low sieve e sieveSize
  exact ⟨out, ho, ho, hpw.imp (fun h => Nat.ne_of_lt h), hm⟩

theorem standsFor_iff (b n : Nat) :
    standsFor b n ↔ b < 8 ∧ bitOffsets.getD b 0 % 30 = n % 30 := by
  unfold standsFor NUMBERS_PER_BYTE
  constructor
  · rintro ⟨o, ho, hn⟩
    obtain ⟨hb, hg⟩ := bitOffsets_getD ho
    exact ⟨hb, by rw [hg, hn]⟩
  · rintro ⟨hb, hn⟩
    exact ⟨_, (bitOffsets_bounds b hb).1, hn.symm⟩

theorem wheel_unique_bit : ∀ r, r < 30 → Nat.gcd r 30 = 1 →
    ∃ b, b < 8 ∧ bitOffsets.getD b 0 % 30 = r ∧
      ∀ c, c < 8 → bitOffsets.getD c 0 % 30 = r → c = b := by
  decide

theorem wheel_no_bit : ∀ r, r < 30 → (r % 2 = 0 ∨ r % 3 = 0 ∨ r % 5 = 0) →
    ∀ b, b < 8 → bitOffsets.getD b 0 % 30 ≠ r := by
  decide

/-- C5: the eight bit offsets 7, 11, 13, 17, 19, 23, 29, 31 are pairwise distinct modulo
`NUMBERS_PER_BYTE = 30`, their residues are exactly 1, 7, 11, 13, 17, 19, 23, 29, which
are exactly the residues below 30 that are coprime to 30; hence every integer coprime to
30 is represented by exactly one bit and no multiple of 2, 3 or 5 is represented. -/
theorem bitOffsets_wheel :
    NUMBERS_PER_BYTE = 30 ∧ bitOffsets = [7, 11, 13, 17, 19, 23, 29, 31] ∧
      (bitOffsets.map (fun o => o % NUMBERS_PER_BYTE)).Nodup ∧
      (∀ r, r ∈ bitOffsets.map (fun o => o % NUMBERS_PER_BYTE) ↔
        r ∈ [1, 7, 11, 13, 17, 19, 23, 29]) ∧
      (∀ r, r < NUMBERS_PER_BYTE →
        (r ∈ bitOffsets.map (fun o => o % NUMBERS_PER_BYTE) ↔
          Nat.gcd r NUMBERS_PER_BYTE = 1)) ∧
      (∀ n, Nat.gcd n NUMBERS_PER_BYTE = 1 →
        ∃ b, standsFor b n ∧ ∀ c, standsFor c n → c = b) ∧
      (∀ n, (2 ∣ n ∨ 3 ∣ n ∨ 5 ∣ n) → ∀ b, ¬ standsFor b n) := by
  refine ⟨rfl, rfl, by decide, ?_, by decide, ?_, ?_⟩
  · intro r
    simp only [bitOffsets, NUMBERS_PER_BYTE, List.map, List.mem_cons, List.mem_singleton,
      List.not_mem_nil, or_false]
    omega
  · intro n hn
    have hr : Nat.gcd (n % 30) 30 = 1 := by
      rw [← Nat.gcd_rec, Nat.gcd_comm]; exact hn
    obtain ⟨b, hb, hbr, huniq⟩ := wheel_unique_bit (n % 30) (Nat.mod_lt _ (by decide)) hr
    refine ⟨b, (standsFor_iff b n).2 ⟨hb, hbr⟩, fun c hc => ?_⟩
    obtain ⟨hc8, hcr⟩ := (standsFor_iff c n).1 hc
    exact huniq c hc8 hcr
  · intro n hn b hb
    obtain ⟨hb8, hbr⟩ := (standsFor_iff b n).1 hb
    refine wheel_no_bit (n % 30) (Nat.mod_lt _ (by decide)) ?_ b hb8 hbr
    omega

/-- C6: with `FACTOR_ERATSMALL = 0.5` and `FACTOR_ERATMEDIUM = 2.5`, for every segment
size `s` in bytes and every sieving prime `p` exactly one of the three tier conditions
holds, `p ≤ 0.5 s` (Small), `0.5 s < p ≤ 2.5 s` (Medium), `p > 2.5 s` (Big), and the
Small threshold never exceeds the Medium threshold. -/
theorem tier_exactly_one (s p : Nat) :
    config.FACTOR_ERATSMALL = 1 / 2 ∧ config.FACTOR_ERATMEDIUM = 5 / 2 ∧
      (s : ℚ) * config.FACTOR_ERATSMALL ≤ (s : ℚ) * config.FACTOR_ERATMEDIUM ∧
      ((tierSmall s p ∧ ¬ tierMedium s p ∧ ¬ tierBig s p) ∨
        (¬ tierSmall s p ∧ tierMedium s p ∧ ¬ tierBig s p) ∨
        (¬ tierSmall s p ∧ ¬ tierMedium s p ∧ tierBig s p)) := by
  have hs : (0 : ℚ) ≤ (s : ℚ) := Nat.cast_nonneg s
  unfold tierSmall tierMedium tierBig config.FACTOR_ERATSMALL config.FACTOR_ERATMEDIUM
  refine ⟨rfl, rfl, by linarith, ?_⟩
  rcases le_or_lt ((p : ℚ)) ((s : ℚ) * (1 / 2)) with h1 | h1
  · refine Or.inl ⟨h1, fun h => ?_, fun h => ?_⟩
    · linarith [h.1]
    · linarith
  · rcases le_or_lt ((p : ℚ)) ((s : ℚ) * (5 / 2)) with h2 | h2
    · refine Or.inr (Or.inl ⟨fun h => ?_, ⟨h1, h2⟩, fun h => ?_⟩)
      · linarith
      · linarith
    · refine Or.inr (Or.inr ⟨fun h => ?_, fun h => ?_, h2⟩)
      · linarith
      · linarith [h.2]

/-- C7: every default tuning constant of config.hpp satisfies its documented bound:
both sieve sizes are 32 and lie in `[1, 2048]`, `PRESIEVE = 19` lies in `[13, 23]`,
`FACTOR_ERATSMALL` lies in `[0, 3]`, `FACTOR_ERATMEDIUM` lies in `[0, 9]` and
`MIN_THREAD_INTERVAL ≥ 100`. -/
theorem default_constants_in_bounds :
    config.PRIMESIEVE_SIEVESIZE = 32 ∧ 1 ≤ config.PRIMESIEVE_SIEVESIZE ∧
      config.PRIMESIEVE_SIEVESIZE ≤ 2048 ∧
      config.PRIMEGENERATOR_SIEVESIZE = 32 ∧ 1 ≤ config.PRIMEGENERATOR_SIEVESIZE ∧
      config.PRIMEGENERATOR_SIEVESIZE ≤ 2048 ∧
      config.PRESIEVE = 19 ∧ 13 ≤ config.PRESIEVE ∧ config.PRESIEVE ≤ 23 ∧
      0 ≤ config.FACTOR_ERATSMALL ∧ config.FACTOR_ERATSMALL ≤ 3 ∧
      0 ≤ config.FACTOR_ERATMEDIUM ∧ config.FACTOR_ERATMEDIUM ≤ 9 ∧
      100 ≤ config.MIN_THREAD_INTERVAL := by
  refine ⟨by decide, by decide, by decide, by decide, by decide, by decide, by decide,
    by decide, by decide, ?_, ?_, ?_, ?_, by decide⟩ <;>
  norm_num [config.FACTOR_ERATSMALL, config.FACTOR_ERATMEDIUM]

/-- C8: `MIN_THREAD_INTERVAL = 10,000,000` and `MAX_THREAD_INTERVAL = 20,000,000,000`
as 64-bit unsigned integers, the latter above `2 ^ 32` and below `2 ^ 64`, with
`MIN_THREAD_INTERVAL ≤ MAX_THREAD_INTERVAL`, so clamping any target length `t` to
`max(MIN, min(t, MAX))` yields a value between the two bounds. -/
theorem thread_interval_clamp :
    config.MIN_THREAD_INTERVAL = 10000000 ∧ config.MAX_THREAD_INTERVAL = 20000000000 ∧
      2 ^ 32 < config.MAX_THREAD_INTERVAL ∧ config.MAX_THREAD_INTERVAL < 2 ^ 64 ∧
      config.MIN_THREAD_INTERVAL ≤ config.MAX_THREAD_INTERVAL ∧
      ∀ t, config.MIN_THREAD_INTERVAL ≤ clampThreadInterval t ∧
        clampThreadInterval t ≤ config.MAX_THREAD_INTERVAL := by
  have hmin : config.MIN_THREAD_INTERVAL = 10000000 := by decide
  have hmax : config.MAX_THREAD_INTERVAL = 20000000000 := by decide
  refine ⟨hmin, hmax, by decide, by decide, by decide, fun t => ?_⟩
  unfold clampThreadInterval
  rw [hmin, hmax]
  omega

/-! ## The fuel model, the unbounded model and the checked model -/

theorem crossOff_eq_nat (N i : Nat) (hi : 0 < i) (hi16 : i < 65536) (hN : N < 65536) :
    ∀ (fuel j : Nat) (a : List Bool), N + 1 - j < fuel →
      crossOff fuel N i j a = crossOffNat N i hi j a := by
  intro fuel
  induction fuel with
  | zero => intro j a h; omega
  | succ fuel ih =>
    intro j a hf
    unfold crossOff
    rw [crossOffNat]
    by_cases hj : j ≤ N
    · have hw : (j + (i * 2) % UINT_MOD) % UINT_MOD = j + i * 2 := by
        rw [uint_mod_eq]; omega
      by_cases hlen : j < a.length
      · simp only [hj, hlen, if_true, hw]
        exact ih (j + i * 2) (a.set j false) (by omega)
      · simp only [hj, hlen, if_true, if_false]
    · simp only [hj, if_false]

theorem markLoop_eq_nat (N inner : Nat) (hN : N < 65536) (hinner : N + 1 < inner) :
    ∀ (fuel i : Nat) (hi : 0 < i) (a : List Bool), i < 65536 → N + 1 - i < fuel →
      markLoop inner fuel N i a = markLoopNat N i hi a := by
  intro fuel
  induction fuel with
  | zero => intro i _ a _ h; omega
  | succ fuel ih =>
    intro i hi a h16 hf
    unfold markLoop
    rw [markLoopNat]
    have hsq : (i * i) % UINT_MOD = i * i := by
      rw [uint_mod_eq]; exact Nat.mod_eq_of_lt (sq_lt_uint h16)
    rw [hsq]
    by_cases hle : i * i ≤ N
    · have hi256 := lt_of_sq_le hle hN
      have hiN : i ≤ N := le_trans (Nat.le_mul_self i) hle
      have hnext : (i + 2) % UINT_MOD = i + 2 := by rw [uint_mod_eq]; omega
      have hcross := crossOff_eq_nat N i hi h16 hN inner (i * i) a (by omega)
      simp only [hle, if_true, hnext, hcross]
      rcases a[i]? with _ | b
      · rfl
      · cases b
        · exact ih (i + 2) (Nat.succ_pos _) a (by omega) (by omega)
        · simp only
          rcases crossOffNat N i hi (i * i) a with a1 | _ | _
          · exact ih (i + 2) (Nat.succ_pos _) a1 (by omega) (by omega)
          · rfl
          · rfl
    · simp only [hle, if_false]

theorem registerLoop_eq_nat (N : Nat) (hN : N < 65536) (a : List Bool) :
    ∀ (fuel i : Nat) (calls : List Nat), N + 1 - i < fuel →
      registerLoop fuel N i a calls = registerLoopNat N i a calls := by
  intro fuel
  induction fuel with
  | zero => intro i _ h; omega
  | succ fuel ih =>
    intro i calls hf
    unfold registerLoop
    rw [registerLoopNat]
    by_cases hle : i ≤ N
    · have hnext : (i + 2) % UINT_MOD = i + 2 := by rw [uint_mod_eq]; omega
      simp only [hle, if_true, hnext]
      rcases a[i]? with _ | b
      · rfl
      · exact ih (i + 2) _ (by omega)
    · simp only [hle, if_false]

theorem firstIndex_no_wrap {P : Nat} (hP : P < UINT_MOD) :
    P + bitNot P % 2 < UINT_MOD ∧ firstIndex P = P + bitNot P % 2 := by
  unfold firstIndex bitNot
  rw [uint_mod_eq] at *
  omega

theorem generateTinyPrimes_eq_nat (L N fuel : Nat) (hL : L + 1 < UINT_MOD) (hN : N < 65536)
    (hf : N + 2 ≤ fuel) : generateTinyPrimes fuel L N = generateTinyPrimesNat L N := by
  unfold generateTinyPrimes generateTinyPrimesNat
  have hlen : (N + 1) % UINT_MOD = N + 1 := by rw [uint_mod_eq]; omega
  have hmark := markLoop_eq_nat N fuel hN (by omega) fuel 3 (by decide)
    (List.replicate (N + 1) true) (by decide) (by omega)
  simp only [hlen, hmark, Nat.mod_eq_of_lt hL, (firstIndex_no_wrap hL).2]
  rcases markLoopNat N 3 (by decide) (List.replicate (N + 1) true) with a1 | _ | _
  · exact registerLoop_eq_nat N hN a1 fuel _ [] (by omega)
  · rfl
  · rfl

theorem crossOffChecked_eq (N i : Nat) (hi16 : i < 65536) (hN : N < 65536) :
    ∀ (fuel j : Nat) (a : List Bool),
      crossOffChecked fuel N i j a = (crossOff fuel N i j a).toChecked := by
  intro fuel
  induction fuel with
  | zero => intro j a; rfl
  | succ fuel ih =>
    intro j a
    unfold crossOffChecked crossOff
    by_cases hj : j ≤ N
    · have hw : (j + (i * 2) % UINT_MOD) % UINT_MOD = j + i * 2 := by
        rw [uint_mod_eq]; omega
      have hfit : i * 2 < UINT_MOD ∧ j + i * 2 < UINT_MOD := by
        rw [uint_mod_eq]; omega
      by_cases hlen : j < a.length
      · simp only [hj, hlen, hfit, and_self, if_true, hw]
        exact ih (j + i * 2) (a.set j false)
      · simp only [hj, hlen, if_true, if_false]
        rfl
    · simp only [hj, if_false]
      rfl

theorem markLoopChecked_eq (N inner : Nat) (hN : N < 65536) :
    ∀ (fuel i : Nat) (a : List Bool), i < 65536 →
      markLoopChecked inner fuel N i a = (markLoop inner fuel N i a).toChecked := by
  intro fuel
  induction fuel with
  | zero => intro i a _; rfl
  | succ fuel ih =>
    intro i a h16
    unfold markLoopChecked markLoop
    have hsqlt : i * i < UINT_MOD := by rw [uint_mod_eq]; exact sq_lt_uint h16
    have hsq : (i * i) % UINT_MOD = i * i := Nat.mod_eq_of_lt hsqlt
    rw [hsq]
    by_cases hle : i * i ≤ N
    · have hi256 := lt_of_sq_le hle hN
      have hnext : (i + 2) % UINT_MOD = i + 2 := by rw [uint_mod_eq]; omega
      have hfit : i + 2 < UINT_MOD := by rw [uint_mod_eq]; omega
      have hcross := crossOffChecked_eq N i h16 hN inner (i * i) a
      simp only [hsqlt, hle, if_true, hnext, hfit, hcross]
      rcases a[i]? with _ | b
      · rfl
      · cases b
        · exact ih (i + 2) a (by omega)
        · simp only
          rcases crossOff inner N i (i * i) a with a1 | _ | _
          · exact ih (i + 2) a1 (by omega)
          · rfl
          · rfl
    · simp only [hsqlt, hle, if_true, if_false]
      rfl

theorem registerLoopChecked_eq (N : Nat) (hN : N < 65536) (a : List Bool) :
    ∀ (fuel i : Nat) (calls : List Nat),
      registerLoopChecked fuel N i a calls = (registerLoop fuel N i a calls).toChecked := by
  intro fuel
  induction fuel with
  | zero => intro i calls; rfl
  | succ fuel ih =>
    intro i calls
    unfold registerLoopChecked registerLoop
    by_cases hle : i ≤ N
    · have hnext : (i + 2) % UINT_MOD = i + 2 := by rw [uint_mod_eq]; omega
      have hfit : i + 2 < UINT_MOD := by rw [uint_mod_eq]; omega
      simp only [hle, if_true, hnext, hfit]
      rcases a[i]? with _ | b
      · rfl
      · exact ih (i + 2) _
    · simp only [hle, if_false]
      rfl

theorem markChecked_eq (N fuel : Nat) (hN : N < 65536) :
    markChecked fuel N =
      (markLoop fuel fuel N 3 (List.replicate ((N + 1) % UINT_MOD) true)).toChecked := by
  unfold markChecked
  have hfit : N + 1 < UINT_MOD := by rw [uint_mod_eq]; omega
  rw [if_pos hfit, Nat.mod_eq_of_lt hfit]
  exact markLoopChecked_eq N fuel hN fuel 3 _ (by decide)

theorem generateTinyPrimesChecked_eq (L N fuel : Nat) (hL : L + 1 < UINT_MOD)
    (hN : N < 65536) :
    generateTinyPrimesChecked fuel L N = (generateTinyPrimes fuel L N).toChecked := by
  unfold generateTinyPrimesChecked generateTinyPrimes
  obtain ⟨hfit, hfirst⟩ := firstIndex_no_wrap hL
  simp only [if_pos hL, markChecked_eq N fuel hN, Nat.mod_eq_of_lt hL, hfirst]
  rcases markLoop fuel fuel N 3 (List.replicate ((N + 1) % UINT_MOD) true) with a1 | _ | _
  · simp only [Run.toChecked, if_pos hfit]
    exact registerLoopChecked_eq N hN a1 fuel _ []
  · rfl
  · rfl

/-! ## Array accesses -/

theorem crossOff_safe (N i : Nat) :
    ∀ (fuel j : Nat) (a : List Bool), a.length = N + 1 →
      crossOff fuel N i j a = Run.outOfFuel ∨
        ∃ b, crossOff fuel N i j a = Run.done b ∧ b.length = N + 1 := by
  intro fuel
  induction fuel with
  | zero => intro j a _; exact Or.inl rfl
  | succ fuel ih =>
    intro j a ha
    unfold crossOff
    by_cases hj : j ≤ N
    · have hlen : j < a.length := by omega
      simp only [hj, hlen, if_true]
      exact ih _ (a.set j false) (by simp [ha])
    · simp only [hj, if_false]
      exact Or.inr ⟨a, rfl, ha⟩

theorem markLoop_safe (N inner : Nat) (hN : N < 65536) :
    ∀ (fuel i : Nat) (a : List Bool), i < 65536 → a.length = N + 1 →
      markLoop inner fuel N i a = Run.outOfFuel ∨
        ∃ b, markLoop inner fuel N i a = Run.done b ∧ b.length = N + 1 := by
  intro fuel
  induction fuel with
  | zero => intro i a _ _; exact Or.inl rfl
  | succ fuel ih =>
    intro i a h16 ha
    unfold markLoop
    have hsq : (i * i) % UINT_MOD = i * i := by
      rw [uint_mod_eq]; exact Nat.mod_eq_of_lt (sq_lt_uint h16)
    rw [hsq]
    by_cases hle : i * i ≤ N
    · have hi256 := lt_of_sq_le hle hN
      have hiN : i ≤ N := le_trans (Nat.le_mul_self i) hle
      have hnext : (i + 2) % UINT_MOD = i + 2 := by rw [uint_mod_eq]; omega
      have hget : a[i]? = some a[i] := List.getElem?_eq_getElem (by omega)
      simp only [hle, if_true, hnext, hget]
      cases a[i]
      · exact ih (i + 2) a (by omega) ha
      · simp only
        rcases crossOff_safe N i inner (i * i) a ha with h | ⟨b, hb, hbl⟩
        · rw [h]; exact Or.inl rfl
        · rw [hb]; exact ih (i + 2) b (by omega) hbl
    · simp only [hle, if_false]
      exact Or.inr ⟨a, rfl, ha⟩

theorem registerLoop_safe (N : Nat) (a : List Bool) (ha : a.length = N + 1) :
    ∀ (fuel i : Nat) (calls : List Nat),
      registerLoop fuel N i a calls ≠ Run.outOfBounds := by
  intro fuel
  induction fuel with
  | zero => intro i calls h; cases h
  | succ fuel ih =>
    intro i calls
    unfold registerLoop
    by_cases hle : i ≤ N
    · have hget : a[i]? = some a[i] := List.getElem?_eq_getElem (by omega)
      simp only [hle, if_true, hget]
      exact ih _ _
    · simp only [hle, if_false]
      intro h; cases h

theorem generateTinyPrimes_safe (L N fuel : Nat) (hN : N < 65536) :
    generateTinyPrimes fuel L N ≠ Run.outOfBounds := by
  unfold generateTinyPrimes
  have hlen : (N + 1) % UINT_MOD = N + 1 := by rw [uint_mod_eq]; omega
  rw [hlen]
  rcases markLoop_safe N fuel hN fuel 3 (List.replicate (N + 1) true) (by decide) (by simp)
    with h | ⟨b, hb, hbl⟩
  · simp only [h]
    intro hc; cases hc
  · simp only [hb]
    exact registerLoop_safe N b hbl fuel _ []

/-! ## The claims about the assertion, doIt, bounds, wrap-around, termination and order -/

theorem prime_gt_five_coprime {p : Nat} (hp : Nat.Prime p) (h5 : 5 < p) : Nat.gcd p 30 = 1 := by
  have h2 : Nat.Coprime p 2 := (Nat.coprime_primes hp Nat.prime_two).2 (by omega)
  have h3 : Nat.Coprime p 3 := (Nat.coprime_primes hp Nat.prime_three).2 (by omega)
  have h5c : Nat.Coprime p 5 := (Nat.coprime_primes hp Nat.prime_five).2 (by omega)
  have h := Nat.Coprime.mul_right h2 (Nat.Coprime.mul_right h3 h5c)
  exact h

theorem standsFor_of_coprime {n : Nat} (hn : Nat.gcd n 30 = 1) : ∃ b, standsFor b n := by
  have hr : Nat.gcd (n % 30) 30 = 1 := by
    rw [← Nat.gcd_rec, Nat.gcd_comm]; exact hn
  obtain ⟨b, hb, hbr, _⟩ := wheel_unique_bit (n % 30) (Nat.mod_lt _ (by decide)) hr
  exact ⟨b, (standsFor_iff b n).2 ⟨hb, hbr⟩⟩

/-- C11: the assertion `P > 5` of generateTinyPrimes holds for every pre-sieve limit
within its documented bounds: for `13 ≤ preSieve ≤ 23` the value `P = preSieve + 1`
exceeds 5, and (for `N < 2 ^ 16`) every value generateTinyPrimes registers is greater
than 5, coprime to 30 and represented by a bit of the modulus-30 wheel. -/
theorem assertion_holds_in_bounds (preSieve N fuel : Nat) (h13 : 13 ≤ preSieve)
    (h23 : preSieve ≤ 23) (hN : N < 2 ^ 16) (hf : N + 2 ≤ fuel) :
    5 < (preSieve + 1) % UINT_MOD ∧
      ∃ out, generateTinyPrimes fuel preSieve N = Run.done out ∧
        ∀ p, p ∈ out → 5 < p ∧ Nat.gcd p 30 = 1 ∧ ∃ b, standsFor b p := by
  have hP : preSieve + 1 < UINT_MOD := by rw [uint_mod_eq]; omega
  refine ⟨by rw [Nat.mod_eq_of_lt hP]; omega, ?_⟩
  obtain ⟨out, ho, _, hm⟩ :=
    generateTinyPrimes_primes preSieve N fuel (by omega) hP (by omega) hf
  refine ⟨out, ho, fun p hp => ?_⟩
  obtain ⟨hprime, hlt, _⟩ := (hm p).1 hp
  have hco := prime_gt_five_coprime hprime (by omega)
  exact ⟨by omega, hco, standsFor_of_coprime hco⟩

/-- Witness of C11 at the default limit 19 with `N = 30`. -/
theorem assertion_holds_in_bounds_witness :
    5 < (19 + 1) % UINT_MOD ∧
      ∃ out, generateTinyPrimes 32 19 30 = Run.done out ∧
        ∀ p, p ∈ out → 5 < p ∧ Nat.gcd p 30 = 1 ∧ ∃ b, standsFor b p :=
  assertion_holds_in_bounds 19 30 32 (by decide) (by decide) (by decide) (by decide)

/-- The hypothesis on the body of addSievingPrime is needed: if addSievingPrime sieved a
segment itself, a segment would be sieved between the registrations of 23 and 29. -/
theorem doIt_with_sieving_registration :
    doIt 32 19 30 (fun _ => [Call.sieveSegment 0]) (fun _ => []) =
        Run.done [Call.addSievingPrime 23, Call.sieveSegment 0, Call.addSievingPrime 29,
          Call.sieveSegment 0, Call.sieve] ∧
      ¬ RegistersOnly (fun _ => [Call.sieveSegment 0]) := by
  refine ⟨by decide, fun h => ?_⟩
  have h1 := (h 0 (Call.sieveSegment 0) (by simp)).1
  simp [Call.sieves] at h1

/-- C13: every array access of generateTinyPrimes is in bounds. For every `N < 2 ^ 16`,
every pre-sieve limit and every amount of fuel the run never takes the out-of-range
branch of the bounds-checked indexing of the vector of `N + 1` entries (an index is
accepted exactly when it is at most `N`), and with `N + 2` units of fuel the run
returns. -/
theorem generateTinyPrimes_in_bounds (L N fuel : Nat) (hN : N < 2 ^ 16) :
    (List.replicate ((N + 1) % UINT_MOD) true).length = N + 1 ∧
      generateTinyPrimes fuel L N ≠ Run.outOfBounds ∧
      (N + 2 ≤ fuel → ∃ out, generateTinyPrimes fuel L N = Run.done out) := by
  refine ⟨?_, generateTinyPrimes_safe L N fuel (by omega), fun hf => ?_⟩
  · rw [List.length_replicate, uint_mod_eq]; omega
  · obtain ⟨out, ho, _⟩ := generateTinyPrimes_run L N fuel (by omega) hf
    exact ⟨out, ho⟩

/-- Witness of C13 at the limit 19 with `N = 30`. -/
theorem generateTinyPrimes_in_bounds_witness :
    (List.replicate ((30 + 1) % UINT_MOD) true).length = 30 + 1 ∧
      generateTinyPrimes 32 19 30 ≠ Run.outOfBounds ∧
      (30 + 2 ≤ 32 → ∃ out, generateTinyPrimes 32 19 30 = Run.done out) :=
  generateTinyPrimes_in_bounds 19 30 32 (by decide)

theorem registerLoop_congr (N : Nat) (hN : N < 65536) (a b : List Bool)
    (hab : ∀ k, k % 2 = 1 → 5 < k → a[k]? = b[k]?) :
    ∀ (fuel i : Nat) (calls : List Nat), i % 2 = 1 → 5 < i →
      registerLoop fuel N i a calls = registerLoop fuel N i b calls := by
  intro fuel
  induction fuel with
  | zero => intro i calls _ _; rfl
  | succ fuel ih =>
    intro i calls hodd h5
    unfold registerLoop
    by_cases hle : i ≤ N
    · have hnext : (i + 2) % UINT_MOD = i + 2 := by rw [uint_mod_eq]; omega
      simp only [hle, if_true, hnext, hab i hodd h5]
      rcases b[i]? with _ | v
      · rfl
      · exact ih (i + 2) _ (by omega) (by omega)
    · simp only [hle, if_false]

/-- C14: under the 64-bit domain bound (`N < 2 ^ 16`) no arithmetic of generateTinyPrimes
wraps around. The sum `N + 1` and, in the marking loops, every `i * i`, `i * 2`,
`j + i * 2` and `i + 2` stay below `2 ^ 32`, so the marking of the machine coincides
with the marking over unbounded naturals; and for every pre-sieve limit for which
`P = L + 1` is a `uint_t` the whole machine computation, checked for any sum or product
that reaches `2 ^ 32`, returns the result of the same computation over unbounded
naturals. -/
theorem generateTinyPrimes_no_wrap (L N fuel : Nat) (hN : N < 2 ^ 16) (hf : N + 2 ≤ fuel) :
    N + 1 < 2 ^ 32 ∧
      (∃ isPrime, markChecked fuel N = Checked.done isPrime ∧
        markLoop fuel fuel N 3 (List.replicate ((N + 1) % UINT_MOD) true) =
          Run.done isPrime ∧
        markLoopNat N 3 (Nat.succ_pos 2) (List.replicate (N + 1) true) = Run.done isPrime) ∧
      (L + 1 < 2 ^ 32 →
        ∃ out, generateTinyPrimesChecked fuel L N = Checked.done out ∧
          generateTinyPrimes fuel L N = Run.done out ∧
          generateTinyPrimesNat L N = Run.done out) := by
  have hN1 : N < 65536 := by omega
  refine ⟨by omega, ?_, fun hL => ?_⟩
  · obtain ⟨a, ha, _⟩ := markLoop_run N fuel hN1 hf
    refine ⟨a, by rw [markChecked_eq N fuel hN1, ha]; rfl, ha, ?_⟩
    have hlen : (N + 1) % UINT_MOD = N + 1 := by rw [uint_mod_eq]; omega
    rw [hlen] at ha
    rw [← markLoop_eq_nat N fuel hN1 (by omega) fuel 3 (Nat.succ_pos 2) _ (by decide)
      (by omega), ha]
  · have hL1 : L + 1 < UINT_MOD := by rw [uint_mod_eq]; omega
    obtain ⟨out, ho, _⟩ := generateTinyPrimes_run L N fuel hN1 hf
    refine ⟨out, ?_, ho, ?_⟩
    · rw [generateTinyPrimesChecked_eq L N fuel hL1 hN1, ho]; rfl
    · rw [← generateTinyPrimes_eq_nat L N fuel hL1 hN1 hf, ho]

/-- Witness of C14 at the limit 19 with `N = 30`. -/
theorem generateTinyPrimes_no_wrap_witness :
    generateTinyPrimesChecked 32 19 30 = Checked.done [23, 29] ∧
      ∃ out, generateTinyPrimesChecked 32 19 30 = Checked.done out ∧
        generateTinyPrimes 32 19 30 = Run.done out ∧
        generateTinyPrimesNat 19 30 = Run.done out :=
  ⟨by decide,
    (generateTinyPrimes_no_wrap 19 30 32 (by decide) (by decide)).2.2 (by decide)⟩

/-- C15: generateTinyPrimes terminates for every `N < 2 ^ 16` and every pre-sieve limit
below `2 ^ 16`. The loops over unbounded naturals are total functions by well-founded
recursion on the measures `N + 1 - i` and `N + 1 - j`, which decrease strictly in the
outer marking loop, in the inner marking loop (stride `2i ≥ 6`) and in the registration
loop; the function returns a result, and the machine computation returns the same
result as soon as each loop may evaluate its test `N + 2` times. -/
theorem generateTinyPrimes_terminates (L N : Nat) (hN : N < 2 ^ 16) (hL : L < 2 ^ 16) :
    (∃ out, generateTinyPrimesNat L N = Run.done out ∧
        ∀ fuel, N + 2 ≤ fuel → generateTinyPrimes fuel L N = Run.done out) ∧
      (∀ i, i * i ≤ N → N + 1 - (i + 2) < N + 1 - i) ∧
      (∀ i j, 3 ≤ i → j ≤ N → 6 ≤ i * 2 ∧ N + 1 - (j + i * 2) < N + 1 - j) ∧
      (∀ i, i ≤ N → N + 1 - (i + 2) < N + 1 - i) := by
  have hN1 : N < 65536 := by omega
  have hL1 : L + 1 < UINT_MOD := by rw [uint_mod_eq]; omega
  refine ⟨?_, fun i hi => ?_, fun i j hi hj => ?_, fun i hi => ?_⟩
  · obtain ⟨out, ho, _⟩ := generateTinyPrimes_run L N (N + 2) hN1 (le_refl _)
    refine ⟨out, ?_, fun fuel hf => ?_⟩
    · rw [← generateTinyPrimes_eq_nat L N (N + 2) hL1 hN1 (le_refl _), ho]
    · rw [generateTinyPrimes_eq_nat L N fuel hL1 hN1 hf,
        ← generateTinyPrimes_eq_nat L N (N + 2) hL1 hN1 (le_refl _), ho]
  · have := Nat.le_mul_self i
    omega
  · omega
  · omega

/-- Witness of C15 at the limit 19 with `N = 30`. -/
theorem generateTinyPrimes_terminates_witness :
    ∃ out, generateTinyPrimesNat 19 30 = Run.done out ∧
      ∀ fuel, 30 + 2 ≤ fuel → generateTinyPrimes fuel 19 30 = Run.done out :=
  (generateTinyPrimes_terminates 19 30 (by decide) (by decide)).1

/-- C16: generateTinyPrimes registers its values in strictly increasing order. For
every `N < 2 ^ 16` and every pre-sieve limit `L ≥ 5`, where `P = L + 1` is a `uint_t`
(`L + 1 < 2 ^ 32`, so that the assertion `P > 5` of the source holds), the sequence of
arguments of the successive addSievingPrime calls is strictly increasing, hence free of
duplicates, each argument is odd and each lies in `(L, N]`. -/
theorem generateTinyPrimes_increasing (L N fuel : Nat) (hL : 5 ≤ L) (hP : L + 1 < 2 ^ 32)
    (hN : N < 2 ^ 16) (hf : N + 2 ≤ fuel) :
    5 < (L + 1) % UINT_MOD ∧
      ∃ out, generateTinyPrimes fuel L N = Run.done out ∧
        out.Pairwise (fun x y => x < y) ∧ out.Nodup ∧
        ∀ p, p ∈ out → p % 2 = 1 ∧ L < p ∧ p ≤ N := by
  have hP1 : L + 1 < UINT_MOD := by rw [uint_mod_eq]; omega
  refine ⟨by rw [Nat.mod_eq_of_lt hP1]; omega, ?_⟩
  obtain ⟨out, ho, hpw, hm⟩ := generateTinyPrimes_run L N fuel (by omega) hf
  refine ⟨out, ho, hpw, hpw.imp (fun h => Nat.ne_of_lt h), fun p hp => ?_⟩
  obtain ⟨h1, h2, h3, _⟩ := (hm p).1 hp
  rw [Nat.mod_eq_of_lt hP1] at h1
  have hfirst := (firstIndex_no_wrap hP1).2
  exact ⟨h3, by omega, h2⟩

/-- Witness of C16 at the limit 5 with `N = 30`. -/
theorem generateTinyPrimes_increasing_witness :
    generateTinyPrimes 32 5 30 = Run.done [7, 11, 13, 17, 19, 23, 29] ∧
      5 < (5 + 1) % UINT_MOD ∧
      ∃ out, generateTinyPrimes 32 5 30 = Run.done out ∧
        out.Pairwise (fun x y => x < y) ∧ out.Nodup ∧
        ∀ p, p ∈ out → p % 2 = 1 ∧ 5 < p ∧ p ≤ 30 :=
  ⟨by decide,
    generateTinyPrimes_increasing 5 30 32 (by decide) (by decide) (by decide) (by decide)⟩

/-- C17: the array of generateTinyPrimes is a primality table only at odd indices from
3 on. For every `N < 2 ^ 16`, after the marking loop every even index `k ≤ N` and the
indices 0 and 1 still hold true, so `isPrime[4]` is true for `N ≥ 4` although 4 is not
prime, while an odd index `k ≥ 3` holds true exactly when `k` is prime; the registered
result is correct because, when the assertion `P > 5` holds, the registration loop
reads odd indices greater than 5 only: it returns the same calls on every array that
agrees with `isPrime` at those indices. -/
theorem isPrime_table_at_odd_indices (N fuel : Nat) (hN : N < 2 ^ 16) (hf : N + 2 ≤ fuel) :
    ∃ isPrime,
      markLoop fuel fuel N 3 (List.replicate ((N + 1) % UINT_MOD) true) = Run.done isPrime ∧
      (∀ k, k ≤ N → k % 2 = 0 → isPrime[k]? = some true) ∧
      (0 ≤ N → isPrime[0]? = some true) ∧ (1 ≤ N → isPrime[1]? = some true) ∧
      (4 ≤ N → isPrime[4]? = some true ∧ ¬ Nat.Prime 4) ∧
      (∀ k, k % 2 = 1 → 3 ≤ k → k ≤ N → (isPrime[k]? = some true ↔ Nat.Prime k)) ∧
      (∀ (L : Nat) (other : List Bool), 5 < (L + 1) % UINT_MOD →
        (∀ k, k % 2 = 1 → 5 < k → other[k]? = isPrime[k]?) →
        registerLoop fuel N (firstIndex ((L + 1) % UINT_MOD)) other [] =
          registerLoop fuel N (firstIndex ((L + 1) % UINT_MOD)) isPrime []) := by
  have hN1 : N < 65536 := by omega
  obtain ⟨a, ha, _, hprime, hsmall⟩ := markLoop_run N fuel hN1 hf
  refine ⟨a, ha, fun k hk he => hsmall k (Or.inl he) hk, fun h => hsmall 0 (Or.inl rfl) h,
    fun h => hsmall 1 (Or.inr (by decide)) h,
    fun h => ⟨hsmall 4 (Or.inl rfl) h, by norm_num⟩, fun k hodd h3 hk => ?_,
    fun L other hassert hagree => ?_⟩
  · rw [hprime k hodd h3 hk]
    simp
  · have hP : (L + 1) % UINT_MOD < UINT_MOD := Nat.mod_lt _ (by rw [uint_mod_eq]; omega)
    have hodd := firstIndex_is_odd hP
    have hfirst := (firstIndex_no_wrap hP).2
    exact registerLoop_congr N hN1 other a hagree fuel _ [] hodd (by omega)

/-- Witness of C17 at `N = 30`. -/
theorem isPrime_table_at_odd_indices_witness :
    markLoop 32 32 30 3 (List.replicate ((30 + 1) % UINT_MOD) true) =
        Run.done [true, true, true, true, true, true, true, true, true, false, true, true,
          true, true, true, false, true, true, true, true, true, false, true, true, true,
          false, true, false, true, true, true] ∧
      ∃ isPrime,
        markLoop 32 32 30 3 (List.replicate ((30 + 1) % UINT_MOD) true) = Run.done isPrime ∧
        (∀ k, k ≤ 30 → k % 2 = 0 → isPrime[k]? = some true) := by
  refine ⟨by decide, ?_⟩
  obtain ⟨a, h1, h2, _⟩ := isPrime_table_at_odd_indices 30 32 (by decide) (by decide)
  exact ⟨a, h1, h2⟩

end primesieve
